import Mathlib

/-!
# A dense matrix library and a four-layer MLP inference pipeline

Shallow embedding of `Matrix.cpp`, `Activation.cpp`, `Dense.cpp` and
`MlpNetwork.cpp`.

Modelling conventions.

* `float` entries are elements of a linearly ordered field `α` (exact
  arithmetic): `ℚ` for concrete evaluations, `ℝ` where `std::exp` is needed.
  Rounding, overflow to infinity and NaN are outside the model.
* `int` values are unbounded (`Int`, or `Nat` for quantities the code keeps
  non-negative: loop counters and the stored dimensions, which the only
  dimensioned constructor rejects unless both are positive).  Overflow of
  `rows * cols` is outside the model.
* `float *mat_data` is a `List α`; a raw read outside the list (undefined
  behaviour in the source) yields `0`, a raw write outside it is dropped.
* A C++ exception is an `Except.error`; a `float&` is the position of the
  element inside `mat_data`.
-/

set_option linter.unusedSectionVars false

namespace Mlp

/-- The exceptions thrown by the library: `std::length_error(SIZE_ERROR)`,
`std::out_of_range(OUT_OF_RANGE_ERROR)` and `std::runtime_error(STREAM_ERROR)`. -/
inductive MatError where
  | length_error
  | out_of_range
  | runtime_error
  deriving DecidableEq, Repr

/-- Counted loop `for (int i = 0; i < n; ++i) body`: the loop-carried state is
threaded through the iterations `0, 1, ..., n-1` in this order and the first
exception leaves the loop. -/
def forLoop {σ : Type} (n : Nat) (body : Nat → σ → Except MatError σ) (s : σ) :
    Except MatError σ :=
  match n with
  | 0 => .ok s
  | k + 1 =>
    match forLoop k body s with
    | .ok t => body k t
    | .error e => .error e

/-- Counted loop `for (int i = 0; i < n; ++i) body` whose body cannot throw. -/
def forPure {σ : Type} (n : Nat) (body : Nat → σ → σ) (s : σ) : σ :=
  match n with
  | 0 => s
  | k + 1 => body k (forPure k body s)

/-- The struct `matrix_dims` of `Matrix.h`. -/
structure matrix_dims where
  rows : Nat
  cols : Nat
  deriving DecidableEq, Repr

/-- The class `Matrix`: its dimensions and its row-major element store. -/
structure Matrix (α : Type) where
  rows : Nat
  cols : Nat
  mat_data : List α
  deriving DecidableEq

namespace Matrix

variable {α : Type} [LinearOrderedField α]

/-- Raw read `mat_data[k]`. -/
def load (m : Matrix α) (k : Nat) : α := m.mat_data.getD k 0

/-- Raw write `mat_data[k] = v`. -/
def store (m : Matrix α) (k : Nat) (v : α) : Matrix α :=
  { m with mat_data := m.mat_data.set k v }

/-- The constructor `Matrix::Matrix(int rows, int cols)`. -/
def ctor (rows cols : Int) : Except MatError (Matrix α) :=
  if rows ≤ 0 ∨ cols ≤ 0 then .error .length_error
  else .ok ⟨rows.toNat, cols.toNat, List.replicate (rows * cols).toNat 0⟩

/-- The default constructor `Matrix::Matrix()`, delegating to `Matrix(1,1)`. -/
def ctor_default : Except MatError (Matrix α) := ctor 1 1

/-- The copy constructor: a fresh zero-initialised store of `rows * cols`
elements, filled element by element from the other matrix. -/
def copy (other_mat : Matrix α) : Matrix α :=
  forPure (other_mat.rows * other_mat.cols)
    (fun i acc => acc.store i (other_mat.load i))
    ⟨other_mat.rows, other_mat.cols, List.replicate (other_mat.rows * other_mat.cols) 0⟩

/-- The getter `get_rows`. -/
def get_rows (m : Matrix α) : Int := m.rows

/-- The getter `get_cols`. -/
def get_cols (m : Matrix α) : Int := m.cols

/-- The accessor `float& operator()(int i, int j)`: the position of the
selected element, or the out-of-range exception. -/
def operator_call (m : Matrix α) (i j : Int) : Except MatError Nat :=
  if i ≥ m.rows ∨ i < 0 ∨ j ≥ m.cols ∨ j < 0 then .error .out_of_range
  else .ok (i * m.cols + j).toNat

/-- The accessor `const float& operator()(int i, int j) const`. -/
def operator_call_const (m : Matrix α) (i j : Int) : Except MatError Nat :=
  if i ≥ m.rows ∨ i < 0 ∨ j ≥ m.cols ∨ j < 0 then .error .out_of_range
  else .ok (i * m.cols + j).toNat

/-- The accessor `float& operator[](int k)`. -/
def operator_index (m : Matrix α) (k : Int) : Except MatError Nat :=
  if k ≥ m.rows * m.cols ∨ k < 0 then .error .out_of_range
  else .ok k.toNat

/-- The accessor `const float& operator[](int k) const`. -/
def operator_index_const (m : Matrix α) (k : Int) : Except MatError Nat :=
  if k ≥ m.rows * m.cols ∨ k < 0 then .error .out_of_range
  else .ok k.toNat

/-- Reading `mat(i, j)` of a non-const matrix. -/
def get (m : Matrix α) (i j : Int) : Except MatError α :=
  match m.operator_call i j with
  | .ok k => .ok (m.load k)
  | .error e => .error e

/-- Reading `mat(i, j)` of a const matrix. -/
def get_const (m : Matrix α) (i j : Int) : Except MatError α :=
  match m.operator_call_const i j with
  | .ok k => .ok (m.load k)
  | .error e => .error e

/-- The assignment `mat(i, j) = v`. -/
def set (m : Matrix α) (i j : Int) (v : α) : Except MatError (Matrix α) :=
  match m.operator_call i j with
  | .ok k => .ok (m.store k v)
  | .error e => .error e

/-- Reading `mat[k]` of a non-const matrix. -/
def get_index (m : Matrix α) (k : Int) : Except MatError α :=
  match m.operator_index k with
  | .ok p => .ok (m.load p)
  | .error e => .error e

/-- Reading `mat[k]` of a const matrix. -/
def get_index_const (m : Matrix α) (k : Int) : Except MatError α :=
  match m.operator_index_const k with
  | .ok p => .ok (m.load p)
  | .error e => .error e

/-- The assignment `mat[k] = v`. -/
def set_index (m : Matrix α) (k : Int) (v : α) : Except MatError (Matrix α) :=
  match m.operator_index k with
  | .ok p => .ok (m.store p v)
  | .error e => .error e

/-- The friend `operator*(const Matrix& r_mat, const Matrix& l_mat)`: the
shape test, the zero-filled result and the triple loop accumulating
`element += r_mat(i,k) * l_mat(k,j)`. -/
def operator_mul (r_mat l_mat : Matrix α) : Except MatError (Matrix α) :=
  if r_mat.cols ≠ l_mat.rows then .error .length_error
  else do
    let multi_mat ← (ctor r_mat.rows l_mat.cols : Except MatError (Matrix α))
    forLoop multi_mat.rows (fun i acc =>
      forLoop multi_mat.cols (fun j acc => do
        let element ← forLoop r_mat.cols (fun k element => do
          let a ← r_mat.get_const i k
          let b ← l_mat.get_const k j
          pure (element + a * b)) 0
        acc.set i j element) acc) multi_mat

/-- The method `transpose`: the store is rewritten from a copy of the old
matrix, then the dimensions are swapped. -/
def transpose (m : Matrix α) : Matrix α :=
  let old_mat := copy m
  let m1 := forPure m.cols (fun i acc =>
    forPure m.rows (fun j acc =>
      acc.store (i * m.rows + j) (old_mat.load (j * m.cols + i))) acc) m
  { m1 with rows := old_mat.cols, cols := old_mat.rows }

/-- The method `vectorize`: only the dimensions change, to `(rows * cols, ONE)`. -/
def vectorize (m : Matrix α) : Matrix α :=
  { m with rows := m.rows * m.cols, cols := 1 }

/-- The method `dot`: the elementwise product. -/
def dot (self other_mat : Matrix α) : Except MatError (Matrix α) :=
  if self.rows ≠ other_mat.rows ∨ self.cols ≠ other_mat.cols then .error .length_error
  else do
    let dot_mat ← (ctor self.rows self.cols : Except MatError (Matrix α))
    pure (forPure (self.cols * self.rows)
      (fun i acc => acc.store i (self.load i * other_mat.load i)) dot_mat)

/-- The method `norm`; `std::sqrt` is a parameter. -/
def norm (sqrt : α → α) (m : Matrix α) : α :=
  sqrt (forPure (m.rows * m.cols) (fun i sum_of_power_elem =>
    sum_of_power_elem + m.load i * m.load i) 0)

/-- The loop of `find_pivot_row`, with `trips` iterations left and the row
counter at `r`; `none` stands for `PIVOT_ROW_NOT_FOUND`. -/
def find_pivot_loop (rref_mat : Matrix α) (lead : Nat) :
    Nat → Nat → Except MatError (Option Nat)
  | 0, _ => .ok none
  | trips + 1, r =>
    match rref_mat.get_const r lead with
    | .error e => .error e
    | .ok v => if v ≠ 0 then .ok (some r) else find_pivot_loop rref_mat lead trips (r + 1)

/-- The helper `find_pivot_row`: the first row at or below `current_row` whose
entry in column `lead` is non-zero. -/
def find_pivot_row (rref_mat : Matrix α) (current_row lead : Nat) :
    Except MatError (Option Nat) :=
  find_pivot_loop rref_mat lead (rref_mat.rows - current_row) current_row

/-- The helper `swap_rows`. -/
def swap_rows (rref_mat : Matrix α) (row1 row2 : Nat) : Except MatError (Matrix α) :=
  forLoop rref_mat.cols (fun c m => do
    let temp ← m.get row1 c
    let v ← m.get row2 c
    let m1 ← m.set row1 c v
    m1.set row2 c temp) rref_mat

/-- The helper `divide_row`. -/
def divide_row (rref_mat : Matrix α) (row : Nat) (divisor : α) :
    Except MatError (Matrix α) :=
  forLoop rref_mat.cols (fun c m => do
    let v ← m.get row c
    m.set row c (v / divisor)) rref_mat

/-- The helper `eliminate_rows`. -/
def eliminate_rows (rref_mat : Matrix α) (pivot_row lead : Nat) :
    Except MatError (Matrix α) :=
  forLoop rref_mat.rows (fun r m =>
    if r ≠ pivot_row then do
      let factor ← m.get r lead
      forLoop rref_mat.cols (fun c m => do
        let p ← m.get pivot_row c
        let v ← m.get r c
        m.set r c (v - factor * p)) m
    else pure m) rref_mat

/-- The constant `VERY_SMALL_NUMBER` (`1e-3`). -/
def VERY_SMALL_NUMBER : α := 1 / 1000

/-- The helper `round_small_values`. -/
def round_small_values (rref_mat : Matrix α) : Except MatError (Matrix α) :=
  forLoop rref_mat.rows (fun r m =>
    forLoop rref_mat.cols (fun c m => do
      let v ← m.get r c
      if |v| < VERY_SMALL_NUMBER then m.set r c 0 else pure m) m) rref_mat

/-- The main loop of `rref` with the row counter at `r` and the column cursor
at `lead`.  The retry `r--; continue` followed by the loop's `++r` re-enters
the body with the same `r`. -/
def rref_loop (rows cols : Nat) (rref_mat : Matrix α) (r lead : Nat) :
    Except MatError (Matrix α) :=
  if r < rows then
    if _h : lead ≥ cols then .ok rref_mat
    else
      match find_pivot_row rref_mat r lead with
      | .error e => .error e
      | .ok none =>
        if lead + 1 = cols then .ok rref_mat
        else rref_loop rows cols rref_mat r (lead + 1)
      | .ok (some pivot_row) =>
        match swap_rows rref_mat pivot_row r with
        | .error e => .error e
        | .ok m1 =>
          match m1.get r lead with
          | .error e => .error e
          | .ok pivot_val =>
            match divide_row m1 r pivot_val with
            | .error e => .error e
            | .ok m2 =>
              match eliminate_rows m2 r lead with
              | .error e => .error e
              | .ok m3 => rref_loop rows cols m3 (r + 1) (lead + 1)
  else round_small_values rref_mat
termination_by cols - lead
decreasing_by all_goals omega

/-- The method `rref`, working on a copy of the matrix. -/
def rref (m : Matrix α) : Except MatError (Matrix α) :=
  let rref_mat := copy m
  rref_loop rref_mat.rows rref_mat.cols rref_mat 0 0

/-- The method `argmax`. -/
def argmax (m : Matrix α) : Nat :=
  (forPure (m.rows * m.cols) (fun i (st : α × Nat) =>
    if m.load i > st.1 then (m.load i, i) else st) (m.load 0, 0)).2

/-- The method `sum`. -/
def sum (m : Matrix α) : α :=
  forPure (m.rows * m.cols) (fun i sum => sum + m.load i) 0

/-- The member `operator+`. -/
def operator_add (self other_mat : Matrix α) : Except MatError (Matrix α) :=
  if self.rows ≠ other_mat.rows ∨ self.cols ≠ other_mat.cols then .error .length_error
  else do
    let addition_mat ← (ctor self.rows self.cols : Except MatError (Matrix α))
    pure (forPure (self.rows * self.cols)
      (fun i acc => acc.store i (self.load i + other_mat.load i)) addition_mat)

/-- The member `operator+=`. -/
def operator_add_assign (self other_mat : Matrix α) : Except MatError (Matrix α) :=
  if self.rows ≠ other_mat.rows ∨ self.cols ≠ other_mat.cols then .error .length_error
  else .ok (forPure (self.rows * self.cols)
    (fun i acc => acc.store i (acc.load i + other_mat.load i)) self)

/-- The member `operator=`; `same_object` is the outcome of the address test
`&other_mat == this`.  The fresh store is not initialised by the source. -/
def operator_assign (self other_mat : Matrix α) (same_object : Bool) : Matrix α :=
  if same_object then self
  else
    forPure (other_mat.rows * other_mat.cols)
      (fun i acc => acc.store i (other_mat.load i))
      ⟨other_mat.rows, other_mat.cols, List.replicate (other_mat.rows * other_mat.cols) 0⟩

/-- The member `operator*(float c)`. -/
def operator_mul_scalar (self : Matrix α) (c : α) : Except MatError (Matrix α) :=
  forLoop (self.rows * self.cols) (fun i new_mat => do
    let v ← new_mat.get_index i
    new_mat.set_index i (v * c)) (copy self)

/-- The friend `operator*(float c, const Matrix& mat)`. -/
def scalar_operator_mul (c : α) (mat : Matrix α) : Except MatError (Matrix α) :=
  let new_mat := copy mat
  forLoop (new_mat.rows * new_mat.cols) (fun i new_mat => do
    let v ← new_mat.get_index i
    new_mat.set_index i (v * c)) new_mat

end Matrix

open Matrix

variable {α : Type} [LinearOrderedField α]

/-- The function `activation::relu`. -/
def relu (mat : Matrix α) : Except MatError (Matrix α) := do
  let relu_mat ← (ctor mat.get_rows mat.get_cols : Except MatError (Matrix α))
  forLoop mat.rows (fun i acc =>
    forLoop mat.cols (fun j acc => do
      let v ← mat.get_const i j
      if v ≥ 0 then do
        let w ← mat.get_const i j
        acc.set i j w
      else acc.set i j 0) acc) relu_mat

/-- The function `activation::softmax`; `std::exp` is a parameter. -/
def softmax (exp : α → α) (mat : Matrix α) : Except MatError (Matrix α) := do
  let softmax_mat ← (ctor mat.get_rows mat.get_cols : Except MatError (Matrix α))
  let softmax_mat ← forLoop (mat.rows * mat.cols) (fun i acc => do
    let v ← mat.get_index_const i
    acc.set_index i (exp v)) softmax_mat
  let sum_of_ex := softmax_mat.sum
  let scalar := 1 / sum_of_ex
  scalar_operator_mul scalar softmax_mat

/-- The function-pointer type `Activation_Func`. -/
abbrev Activation_Func (α : Type) := Matrix α → Except MatError (Matrix α)

/-- The class `Dense`. -/
structure Dense (α : Type) where
  _weights : Matrix α
  _bias : Matrix α
  _activation_func : Activation_Func α

namespace Dense

/-- The constructor of `Dense`: both matrices are copied into the layer. -/
def ctor (weights bias : Matrix α) (activation_func : Activation_Func α) : Dense α :=
  ⟨copy weights, copy bias, activation_func⟩

/-- The getter `get_weights`, returning a copy. -/
def get_weights (d : Dense α) : Matrix α := copy d._weights

/-- The getter `get_bias`, returning a copy. -/
def get_bias (d : Dense α) : Matrix α := copy d._bias

/-- The getter `get_activation`. -/
def get_activation (d : Dense α) : Activation_Func α := d._activation_func

/-- The call operator of `Dense`: `_activation_func((_weights * input_vec) + _bias)`.
The enclosing `Matrix(...)` of a temporary constructs no further copy. -/
def operator_call (d : Dense α) (input_vec : Matrix α) : Except MatError (Matrix α) := do
  let product ← operator_mul d._weights input_vec
  let shifted ← operator_add product d._bias
  d._activation_func shifted

end Dense

/-- The constant `MLP_SIZE`. -/
abbrev MLP_SIZE : Nat := 4

/-- The struct `digit`. -/
structure digit (α : Type) where
  value : Nat
  probability : α

/-- The constant `img_dims`. -/
def img_dims : matrix_dims := ⟨28, 28⟩

/-- The constant table `weights_dims`. -/
def weights_dims : Fin MLP_SIZE → matrix_dims := ![⟨128, 784⟩, ⟨64, 128⟩, ⟨20, 64⟩, ⟨10, 20⟩]

/-- The constant table `bias_dims`. -/
def bias_dims : Fin MLP_SIZE → matrix_dims := ![⟨128, 1⟩, ⟨64, 1⟩, ⟨20, 1⟩, ⟨10, 1⟩]

/-- The class `MlpNetwork`. -/
structure MlpNetwork (α : Type) where
  _layer1 : Dense α
  _layer2 : Dense α
  _layer3 : Dense α
  _layer4 : Dense α

namespace MlpNetwork

/-- The constructor of `MlpNetwork`: three `relu` layers and a `softmax` layer. -/
def ctor (exp : α → α) (weights biases : Fin MLP_SIZE → Matrix α) : MlpNetwork α :=
  ⟨Dense.ctor (weights 0) (biases 0) relu,
   Dense.ctor (weights 1) (biases 1) relu,
   Dense.ctor (weights 2) (biases 2) relu,
   Dense.ctor (weights 3) (biases 3) (softmax exp)⟩

/-- The call operator of `MlpNetwork`.  The argument is reshaped in place
(`vec = vec.vectorize()` assigns the matrix to itself), so the result carries
the argument's final value next to the returned `digit`. -/
def operator_call (net : MlpNetwork α) (vec : Matrix α) :
    Except MatError (digit α × Matrix α) := do
  let vec := operator_assign vec.vectorize vec.vectorize true
  let r1 ← net._layer1.operator_call vec
  let r2 ← net._layer2.operator_call r1
  let r3 ← net._layer3.operator_call r2
  let r4 ← net._layer4.operator_call r3
  let max_ind := r4.argmax
  let prob ← r4.get_index max_ind
  pure (⟨max_ind, prob⟩, vec)

end MlpNetwork

/-! ## Specification vocabulary -/

namespace Matrix

/-- The data-model invariant of a matrix: both dimensions are positive and the
store holds exactly `rows * cols` elements. -/
def WellFormed (m : Matrix α) : Prop :=
  1 ≤ m.rows ∧ 1 ≤ m.cols ∧ m.mat_data.length = m.rows * m.cols

/-- The matrix has `R` rows, `C` columns and a store of `R * C` elements. -/
def HasShape (m : Matrix α) (R C : Nat) : Prop :=
  m.rows = R ∧ m.cols = C ∧ m.mat_data.length = R * C

/-- The all-zero matrix with `R` rows and `C` columns. -/
def zeros (R C : Nat) : Matrix α := ⟨R, C, List.replicate (R * C) 0⟩

/-- The element in row `i` and column `j`, read at `i * cols + j` of the store. -/
def entry (m : Matrix α) (i j : Nat) : α := m.load (i * m.cols + j)

/-- Reduced row-echelon form: `k` pivot rows with strictly increasing pivot
columns `c 0 < ... < c (k-1)`; row `i < k` starts with zeros up to a `1` in
column `c i`, that column is zero in every other row, and the rows from `k` on
are zero. -/
def IsRREF (m : Matrix α) : Prop :=
  ∃ (k : Nat) (c : Nat → Nat), k ≤ m.rows ∧
    (∀ i, i < k → c i < m.cols) ∧
    (∀ i j, i < j → j < k → c i < c j) ∧
    (∀ i, i < k → m.entry i (c i) = 1 ∧ (∀ j, j < c i → m.entry i j = 0) ∧
      (∀ i', i' < m.rows → i' ≠ i → m.entry i' (c i) = 0)) ∧
    (∀ i, k ≤ i → i < m.rows → ∀ j, j < m.cols → m.entry i j = 0)

/-- Where one pass through the main loop of `rref` leaves the function: at the
loop head again, with the matrix, the row counter and the column cursor it has
there, or at a `return`. -/
inductive RrefOutcome (α : Type) where
  | next (rref_mat : Matrix α) (r lead : Nat)
  | done (result : Matrix α)

/-- One pass through the main loop of `rref` from its head: the loop test, the
body up to a `return`, to the `continue` or to its end, and the `++r` of the
loop; past the last row, the rounding pass and the final `return`. -/
def rref_step (rows cols : Nat) (rref_mat : Matrix α) (r lead : Nat) :
    Except MatError (RrefOutcome α) :=
  if r < rows then
    if lead ≥ cols then .ok (.done rref_mat)
    else
      match find_pivot_row rref_mat r lead with
      | .error e => .error e
      | .ok none =>
        if lead + 1 = cols then .ok (.done rref_mat)
        else .ok (.next rref_mat r (lead + 1))
      | .ok (some pivot_row) =>
        match swap_rows rref_mat pivot_row r with
        | .error e => .error e
        | .ok m1 =>
          match m1.get r lead with
          | .error e => .error e
          | .ok pivot_val =>
            match divide_row m1 r pivot_val with
            | .error e => .error e
            | .ok m2 =>
              match eliminate_rows m2 r lead with
              | .error e => .error e
              | .ok m3 => .ok (.next m3 (r + 1) (lead + 1))
  else
    match round_small_values rref_mat with
    | .error e => .error e
    | .ok result => .ok (.done result)

/-- The invariant of the main loop of `rref` on an `R x C` matrix, at row
counter `r` and column cursor `lead`: the rows above `r` are pivot rows with
strictly increasing pivot columns below `lead`, and the rows from `r` on are
zero in every column below `lead`. -/
def RrefInv (R C : Nat) (m : Matrix α) (r lead : Nat) : Prop :=
  m.HasShape R C ∧ r ≤ R ∧ lead ≤ C ∧
  ∃ c : Nat → Nat,
    (∀ i, i < r → c i < lead) ∧
    (∀ i j, i < j → j < r → c i < c j) ∧
    (∀ i, i < r → m.entry i (c i) = 1 ∧ (∀ j, j < c i → m.entry i j = 0) ∧
      (∀ i', i' < R → i' ≠ i → m.entry i' (c i) = 0)) ∧
    (∀ i, r ≤ i → i < R → ∀ j, j < lead → m.entry i j = 0)

end Matrix

end Mlp

namespace Mlp

/-! ## Loops -/

theorem forLoop_succ {σ : Type} (k : Nat) (body : Nat → σ → Except MatError σ) (s : σ) :
    forLoop (k + 1) body s =
      match forLoop k body s with
      | .ok t => body k t
      | .error e => .error e := rfl

/-- Invariant rule for a counted loop whose body never throws under the invariant. -/
theorem forLoop_inv {σ : Type} (P : Nat → σ → Prop) (n : Nat)
    (body : Nat → σ → Except MatError σ) (s : σ) (h0 : P 0 s)
    (hstep : ∀ k, k < n → ∀ t, P k t → ∃ t', body k t = .ok t' ∧ P (k + 1) t') :
    ∃ t, forLoop n body s = .ok t ∧ P n t := by
  induction n with
  | zero => exact ⟨s, rfl, h0⟩
  | succ k ih =>
    obtain ⟨t, ht, hP⟩ := ih (fun j hj => hstep j (Nat.lt_succ_of_lt hj))
    obtain ⟨t', ht', hP'⟩ := hstep k (Nat.lt_succ_self k) t hP
    refine ⟨t', ?_, hP'⟩
    rw [forLoop_succ, ht]
    exact ht'

/-- Invariant rule for a counted loop without exceptions. -/
theorem forPure_inv {σ : Type} (P : Nat → σ → Prop) (n : Nat)
    (body : Nat → σ → σ) (s : σ) (h0 : P 0 s)
    (hstep : ∀ k, k < n → ∀ t, P k t → P (k + 1) (body k t)) :
    P n (forPure n body s) := by
  induction n with
  | zero => exact h0
  | succ k ih =>
    exact hstep k (Nat.lt_succ_self k) _ (ih (fun j hj => hstep j (Nat.lt_succ_of_lt hj)))

/-! ## Row-major index arithmetic -/

theorem rowmajor_lt {R C i j : Nat} (hi : i < R) (hj : j < C) : i * C + j < R * C := by
  have h1 : i * C + C ≤ R * C := by
    have : (i + 1) * C ≤ R * C := Nat.mul_le_mul_right C hi
    linarith [Nat.succ_mul i C]
  omega

theorem rowmajor_inj {C i j i' j' : Nat} (hj : j < C) (hj' : j' < C) :
    i * C + j = i' * C + j' ↔ i = i' ∧ j = j' := by
  constructor
  · intro h
    have hC : 0 < C := by omega
    have h1 : (i * C + j) / C = i := by
      rw [Nat.add_comm, Nat.add_mul_div_right _ _ hC, Nat.div_eq_of_lt hj, Nat.zero_add]
    have h2 : (i' * C + j') / C = i' := by
      rw [Nat.add_comm, Nat.add_mul_div_right _ _ hC, Nat.div_eq_of_lt hj', Nat.zero_add]
    have hi : i = i' := by rw [← h1, ← h2, h]
    subst hi
    exact ⟨rfl, by omega⟩
  · rintro ⟨rfl, rfl⟩; rfl

namespace Matrix

variable {α : Type} [LinearOrderedField α]

/-! ## Raw reads and writes -/

@[simp] theorem store_rows (m : Matrix α) (k : Nat) (v : α) : (m.store k v).rows = m.rows := rfl

@[simp] theorem store_cols (m : Matrix α) (k : Nat) (v : α) : (m.store k v).cols = m.cols := rfl

@[simp] theorem store_length (m : Matrix α) (k : Nat) (v : α) :
    (m.store k v).mat_data.length = m.mat_data.length := by
  simp [store]

theorem load_store (m : Matrix α) (k k' : Nat) (v : α) (hk : k < m.mat_data.length) :
    (m.store k v).load k' = if k' = k then v else m.load k' := by
  unfold load store
  by_cases h : k' = k
  · subst h
    simp [List.getD_eq_getElem?_getD, List.getElem?_set, hk]
  · have h' : ¬ k = k' := fun e => h e.symm
    simp [List.getD_eq_getElem?_getD, List.getElem?_set, h, h']

theorem HasShape.store {m : Matrix α} {R C : Nat} (h : m.HasShape R C) (k : Nat) (v : α) :
    (m.store k v).HasShape R C := by
  obtain ⟨h1, h2, h3⟩ := h
  exact ⟨h1, h2, by simpa using h3⟩

theorem entry_store {m : Matrix α} {R C : Nat} (h : m.HasShape R C) {i j i' j' : Nat}
    (hi : i < R) (hj : j < C) (hj' : j' < C) (v : α) :
    (m.store (i * C + j) v).entry i' j' = if i' = i ∧ j' = j then v else m.entry i' j' := by
  obtain ⟨h1, h2, h3⟩ := h
  unfold entry
  rw [store_cols, h2, load_store _ _ _ _ (by rw [h3]; exact rowmajor_lt hi hj)]
  simp only [rowmajor_inj hj' hj]

/-! ## Checked accessors inside the bounds -/

theorem toNat_rowmajor (i C j : Nat) : ((i : Int) * (C : Int) + (j : Int)).toNat = i * C + j := by
  have : ((i : Int) * (C : Int) + (j : Int)) = ((i * C + j : Nat) : Int) := by push_cast; ring
  rw [this, Int.toNat_natCast]

theorem operator_call_ok {m : Matrix α} {i j : Nat} (hi : i < m.rows) (hj : j < m.cols) :
    m.operator_call i j = .ok (i * m.cols + j) := by
  unfold operator_call
  rw [if_neg (by omega), toNat_rowmajor]

theorem operator_call_const_ok {m : Matrix α} {i j : Nat} (hi : i < m.rows) (hj : j < m.cols) :
    m.operator_call_const i j = .ok (i * m.cols + j) := by
  unfold operator_call_const
  rw [if_neg (by omega), toNat_rowmajor]

theorem get_ok {m : Matrix α} {i j : Nat} (hi : i < m.rows) (hj : j < m.cols) :
    m.get i j = .ok (m.entry i j) := by
  unfold get
  rw [operator_call_ok hi hj]
  rfl

theorem get_const_ok {m : Matrix α} {i j : Nat} (hi : i < m.rows) (hj : j < m.cols) :
    m.get_const i j = .ok (m.entry i j) := by
  unfold get_const
  rw [operator_call_const_ok hi hj]
  rfl

theorem set_ok {m : Matrix α} {i j : Nat} (hi : i < m.rows) (hj : j < m.cols) (v : α) :
    m.set i j v = .ok (m.store (i * m.cols + j) v) := by
  unfold set
  rw [operator_call_ok hi hj]

theorem operator_index_ok {m : Matrix α} {k : Nat} (hk : k < m.rows * m.cols) :
    m.operator_index k = .ok k := by
  unfold operator_index
  rw [if_neg (by intro h; rcases h with h | h
                 · have : ((m.rows * m.cols : Nat) : Int) ≤ (k : Int) := by push_cast; exact h
                   omega
                 · omega), Int.toNat_natCast]

theorem operator_index_const_ok {m : Matrix α} {k : Nat} (hk : k < m.rows * m.cols) :
    m.operator_index_const k = .ok k := by
  unfold operator_index_const
  rw [if_neg (by intro h; rcases h with h | h
                 · have : ((m.rows * m.cols : Nat) : Int) ≤ (k : Int) := by push_cast; exact h
                   omega
                 · omega), Int.toNat_natCast]

theorem get_index_ok {m : Matrix α} {k : Nat} (hk : k < m.rows * m.cols) :
    m.get_index k = .ok (m.load k) := by
  unfold get_index
  rw [operator_index_ok hk]

theorem get_index_const_ok {m : Matrix α} {k : Nat} (hk : k < m.rows * m.cols) :
    m.get_index_const k = .ok (m.load k) := by
  unfold get_index_const
  rw [operator_index_const_ok hk]

theorem set_index_ok {m : Matrix α} {k : Nat} (hk : k < m.rows * m.cols) (v : α) :
    m.set_index k v = .ok (m.store k v) := by
  unfold set_index
  rw [operator_index_ok hk]

/-! ## The dimensioned constructor -/

theorem ctor_ok {R C : Nat} (hR : 1 ≤ R) (hC : 1 ≤ C) :
    (ctor (R : Int) (C : Int) : Except MatError (Matrix α)) =
      .ok ⟨R, C, List.replicate (R * C) 0⟩ := by
  unfold ctor
  rw [if_neg (by omega)]
  have : ((R : Int) * (C : Int)).toNat = R * C := by
    have h := toNat_rowmajor R C 0
    simpa using h
  simp [this]

theorem WellFormed.hasShape {m : Matrix α} (h : m.WellFormed) : m.HasShape m.rows m.cols :=
  ⟨rfl, rfl, h.2.2⟩

end Matrix

end Mlp

namespace Mlp

namespace Matrix

variable {α : Type} [LinearOrderedField α]

/-! ## The dimensioned constructor (C10) -/

theorem replicate_getD_zero (n k : Nat) : (List.replicate n (0 : α)).getD k 0 = 0 := by
  rw [List.getD_eq_getElem?_getD, List.getElem?_replicate]
  split <;> rfl

/-- C10. `Matrix(rows, cols)` throws the size error exactly when `rows <= 0` or
`cols <= 0`; otherwise it returns a matrix with these dimensions whose store has
`rows * cols` elements, all equal to `0`. -/
theorem ctor_spec (rows cols : Int) :
    ((ctor rows cols : Except MatError (Matrix α)) = .error .length_error ↔
        (rows ≤ 0 ∨ cols ≤ 0)) ∧
    (¬ (rows ≤ 0 ∨ cols ≤ 0) →
      ∃ m : Matrix α, ctor rows cols = .ok m ∧ (m.rows : Int) = rows ∧ (m.cols : Int) = cols ∧
        (m.mat_data.length : Int) = rows * cols ∧ m.mat_data.length = m.rows * m.cols ∧
        (∀ x, x ∈ m.mat_data → x = 0) ∧ ∀ k, k < m.rows * m.cols → m.load k = 0) := by
  by_cases h : rows ≤ 0 ∨ cols ≤ 0
  · unfold ctor
    simp [h]
  · obtain ⟨r, rfl⟩ := Int.eq_ofNat_of_zero_le (show 0 ≤ rows by omega)
    obtain ⟨c, rfl⟩ := Int.eq_ofNat_of_zero_le (show 0 ≤ cols by omega)
    have hr : 1 ≤ r := by omega
    have hc : 1 ≤ c := by omega
    rw [ctor_ok hr hc]
    refine ⟨⟨fun e => (by cases e), fun e => absurd e h⟩, fun _ => ⟨_, rfl, rfl, rfl, ?_, ?_, ?_, ?_⟩⟩
    · simp
    · simp
    · intro x hx
      exact (List.mem_replicate.mp hx).2
    · intro k _
      exact replicate_getD_zero _ _

/-! ## The matrix product (C1) -/

theorem entry_replicate (R C i j : Nat) :
    (⟨R, C, List.replicate (R * C) 0⟩ : Matrix α).entry i j = 0 :=
  replicate_getD_zero _ _

theorem mul_inner (L R : Matrix α) (h : L.cols = R.rows) {i j : Nat} (hi : i < L.rows)
    (hj : j < R.cols) (n : Nat) (hn : n ≤ L.cols) :
    forLoop n (fun k element =>
        (do
          let a ← L.get_const i k
          let b ← R.get_const k j
          pure (element + a * b) : Except MatError α)) 0 =
      .ok (∑ k in Finset.range n, L.entry i k * R.entry k j) := by
  induction n with
  | zero => rfl
  | succ k ih =>
    rw [forLoop_succ, ih (by omega)]
    have hk : k < L.cols := by omega
    simp only [get_const_ok hi hk, get_const_ok (show k < R.rows by omega) hj,
      Finset.sum_range_succ]
    rfl

theorem operator_mul_ok (L R : Matrix α) (hL : L.WellFormed) (hR : R.WellFormed)
    (h : L.cols = R.rows) :
    ∃ P, operator_mul L R = .ok P ∧ P.HasShape L.rows R.cols ∧
      ∀ i j, i < L.rows → j < R.cols →
        P.entry i j = ∑ k in Finset.range L.cols, L.entry i k * R.entry k j := by
  unfold operator_mul
  rw [if_neg (by simpa using h), ctor_ok hL.1 hR.2.1]
  show ∃ P, forLoop L.rows _ _ = .ok P ∧ _
  have outer := forLoop_inv
    (fun n (acc : Matrix α) => acc.HasShape L.rows R.cols ∧
      ∀ i j, i < n → j < R.cols →
        acc.entry i j = ∑ k in Finset.range L.cols, L.entry i k * R.entry k j)
    L.rows
    (fun i acc =>
      forLoop R.cols (fun j acc => do
        let element ← forLoop L.cols (fun k element => do
          let a ← L.get_const i k
          let b ← R.get_const k j
          pure (element + a * b)) 0
        acc.set i j element) acc)
    (⟨L.rows, R.cols, List.replicate (L.rows * R.cols) 0⟩ : Matrix α)
    ⟨⟨rfl, rfl, by simp⟩, fun i j hi _ => absurd hi (Nat.not_lt_zero i)⟩
    (by
      intro i hi acc ⟨hs, hacc⟩
      have inner := forLoop_inv
        (fun n (a : Matrix α) => a.HasShape L.rows R.cols ∧
          (∀ i' j, i' < i → j < R.cols →
            a.entry i' j = ∑ k in Finset.range L.cols, L.entry i' k * R.entry k j) ∧
          ∀ j, j < n →
            a.entry i j = ∑ k in Finset.range L.cols, L.entry i k * R.entry k j)
        R.cols
        (fun j acc => do
          let element ← forLoop L.cols (fun k element => do
            let a ← L.get_const i k
            let b ← R.get_const k j
            pure (element + a * b)) 0
          acc.set i j element)
        acc ⟨hs, hacc, fun j hj => absurd hj (Nat.not_lt_zero j)⟩
        (by
          intro j hj a ⟨hsa, hrows, hcur⟩
          refine ⟨a.store (i * R.cols + j)
            (∑ k in Finset.range L.cols, L.entry i k * R.entry k j), ?_, hsa.store _ _, ?_, ?_⟩
          · beta_reduce
            rw [mul_inner L R h hi hj L.cols (le_refl _)]
            show a.set i j _ = _
            rw [set_ok (by rw [hsa.1]; exact hi) (by rw [hsa.2.1]; exact hj), hsa.2.1]
          · intro i' j' hi' hj'
            rw [entry_store hsa hi hj hj', if_neg (by omega)]
            exact hrows i' j' hi' hj'
          · intro j' hj'
            rw [entry_store hsa hi hj (by omega)]
            by_cases e : j' = j
            · subst e; simp
            · rw [if_neg (by simp [e])]
              exact hcur j' (by omega))
      obtain ⟨t, ht, hst, hrows, hcur⟩ := inner
      refine ⟨t, ht, hst, ?_⟩
      intro i' j hi' hj
      by_cases e : i' = i
      · subst e; exact hcur j hj
      · exact hrows i' j (by omega) hj)
  obtain ⟨P, hP, hs, hentries⟩ := outer
  exact ⟨P, hP, hs, hentries⟩

theorem operator_mul_error (L R : Matrix α) (h : L.cols ≠ R.rows) :
    operator_mul L R = .error .length_error := by
  unfold operator_mul
  rw [if_pos h]

/-- C1. The product `L * R` throws the size error exactly when
`cols(L) != rows(R)`; otherwise it returns a `rows(L) x cols(R)` matrix whose
entry `(i, j)` is the sum over `k < cols(L)` of `L(i,k) * R(k,j)`. -/
theorem operator_mul_spec (L R : Matrix α) (hL : L.WellFormed) (hR : R.WellFormed) :
    (operator_mul L R = .error .length_error ↔ L.cols ≠ R.rows) ∧
    (L.cols = R.rows →
      ∃ P, operator_mul L R = .ok P ∧ P.rows = L.rows ∧ P.cols = R.cols ∧
        P.mat_data.length = L.rows * R.cols ∧
        ∀ i j, i < L.rows → j < R.cols →
          P.get_const i j = .ok (∑ k in Finset.range L.cols, L.entry i k * R.entry k j)) := by
  constructor
  · constructor
    · intro hfail
      by_contra hne
      obtain ⟨P, hP, _⟩ := operator_mul_ok L R hL hR (by simpa using hne)
      rw [hP] at hfail
      cases hfail
    · exact operator_mul_error L R
  · intro h
    obtain ⟨P, hP, hs, hentries⟩ := operator_mul_ok L R hL hR h
    refine ⟨P, hP, hs.1, hs.2.1, hs.2.2, ?_⟩
    intro i j hi hj
    rw [get_const_ok (by rw [hs.1]; exact hi) (by rw [hs.2.1]; exact hj)]
    exact congrArg _ (hentries i j hi hj)

end Matrix

end Mlp

namespace Mlp

namespace Matrix

variable {α : Type} [LinearOrderedField α]

/-! ## Index of the maximum (C5) -/

theorem argmax_loop_inv (A : Matrix α) (n : Nat) :
    (fun (st : α × Nat) => st.1 = A.load st.2 ∧ (st.2 = 0 ∨ st.2 < n) ∧
      (∀ j, j < n → A.load j ≤ st.1) ∧ ∀ j, j < st.2 → A.load j < st.1)
    (forPure n (fun i (st : α × Nat) =>
      if A.load i > st.1 then (A.load i, i) else st) (A.load 0, 0)) := by
  apply forPure_inv
    (fun n (st : α × Nat) => st.1 = A.load st.2 ∧ (st.2 = 0 ∨ st.2 < n) ∧
      (∀ j, j < n → A.load j ≤ st.1) ∧ ∀ j, j < st.2 → A.load j < st.1)
  · exact ⟨rfl, Or.inl rfl, fun j hj => absurd hj (Nat.not_lt_zero j),
      fun j hj => absurd hj (Nat.not_lt_zero j)⟩
  intro k _ st ⟨h1, h2, h3, h4⟩
  by_cases hgt : A.load k > st.1
  · show (fun (st : α × Nat) => _) (if A.load k > st.1 then (A.load k, k) else st)
    rw [if_pos hgt]
    refine ⟨rfl, Or.inr (Nat.lt_succ_self k), ?_, ?_⟩
    · intro j hj
      rcases Nat.lt_succ_iff_lt_or_eq.mp hj with hlt | rfl
      · exact le_of_lt (lt_of_le_of_lt (h3 j hlt) hgt)
      · exact le_refl _
    · intro j hj
      exact lt_of_le_of_lt (h3 j hj) hgt
  · show (fun (st : α × Nat) => _) (if A.load k > st.1 then (A.load k, k) else st)
    rw [if_neg hgt]
    refine ⟨h1, ?_, ?_, h4⟩
    · rcases h2 with h2 | h2
      · exact Or.inl h2
      · exact Or.inr (Nat.lt_succ_of_lt h2)
    · intro j hj
      rcases Nat.lt_succ_iff_lt_or_eq.mp hj with hlt | rfl
      · exact h3 j hlt
      · exact not_lt.mp hgt

theorem argmax_lt {A : Matrix α} (hn : 1 ≤ A.rows * A.cols) : A.argmax < A.rows * A.cols := by
  obtain ⟨_, h2, _, _⟩ := argmax_loop_inv A (A.rows * A.cols)
  unfold argmax
  rcases h2 with h2 | h2
  · rw [h2]; exact hn
  · exact h2

theorem argmax_ge (A : Matrix α) (j : Nat) (hj : j < A.rows * A.cols) :
    A.load j ≤ A.load A.argmax := by
  obtain ⟨h1, _, h3, _⟩ := argmax_loop_inv A (A.rows * A.cols)
  have := h3 j hj
  rw [h1] at this
  exact this

theorem argmax_first (A : Matrix α) (j : Nat) (hj : j < A.argmax) :
    A.load j < A.load A.argmax := by
  obtain ⟨h1, _, _, h4⟩ := argmax_loop_inv A (A.rows * A.cols)
  have := h4 j hj
  rw [h1] at this
  exact this

/-- C5. For a well-formed matrix with `n = rows * cols` elements, `argmax`
returns an index `m < n` whose element is at least every element and strictly
greater than every element before it; for the flat sequence `[3, 5, 5, 1]`
(whatever its shape) it returns `1`. -/
theorem argmax_spec :
    (∀ A : Matrix α, A.WellFormed →
      A.argmax < A.rows * A.cols ∧
      (∀ j, j < A.rows * A.cols → A.load j ≤ A.load A.argmax) ∧
      (∀ j, j < A.argmax → A.load j < A.load A.argmax) ∧
      A.get_index_const A.argmax = .ok (A.load A.argmax)) ∧
    (∀ r c : Nat, r * c = 4 → (⟨r, c, [3, 5, 5, 1]⟩ : Matrix α).argmax = 1) := by
  constructor
  · intro A hA
    have hlt : A.argmax < A.rows * A.cols := argmax_lt (Nat.mul_pos hA.1 hA.2.1)
    exact ⟨hlt, argmax_ge A, argmax_first A, get_index_const_ok hlt⟩
  · intro r c hrc
    unfold argmax
    simp only [hrc]
    have e0 : (⟨r, c, [3, 5, 5, 1]⟩ : Matrix α).load 0 = 3 := rfl
    have e1 : (⟨r, c, [3, 5, 5, 1]⟩ : Matrix α).load 1 = 5 := rfl
    have e2 : (⟨r, c, [3, 5, 5, 1]⟩ : Matrix α).load 2 = 5 := rfl
    have e3 : (⟨r, c, [3, 5, 5, 1]⟩ : Matrix α).load 3 = 1 := rfl
    simp only [forPure, e0, e1, e2, e3]
    norm_num

end Matrix

end Mlp

namespace Mlp

namespace Matrix

variable {α : Type} [LinearOrderedField α]

/-! ## Matrices are determined by their dimensions and their elements -/

theorem load_eq_getElem (m : Matrix α) (k : Nat) (hk : k < m.mat_data.length) :
    m.load k = m.mat_data[k] := by
  unfold load
  rw [List.getD_eq_getElem?_getD, List.getElem?_eq_getElem hk]
  rfl

theorem load_of_length_le (m : Matrix α) (k : Nat) (hk : m.mat_data.length ≤ k) :
    m.load k = 0 := by
  unfold load
  rw [List.getD_eq_getElem?_getD, List.getElem?_eq_none hk]
  rfl

theorem eq_of_load {m m' : Matrix α} (hr : m.rows = m'.rows) (hc : m.cols = m'.cols)
    (hl : m.mat_data.length = m'.mat_data.length)
    (h : ∀ k, k < m.mat_data.length → m.load k = m'.load k) : m = m' := by
  cases m with
  | mk r c d =>
    cases m' with
    | mk r' c' d' =>
      simp only at hr hc hl
      subst hr hc
      have : d = d' := by
        apply List.ext_getElem hl
        intro k h1 h2
        have := h k h1
        rw [load_eq_getElem _ _ h1, load_eq_getElem _ _ h2] at this
        exact this
      rw [this]

theorem HasShape.ext_load {m m' : Matrix α} {R C : Nat} (hm : m.HasShape R C)
    (hm' : m'.HasShape R C) (h : ∀ k, k < R * C → m.load k = m'.load k) : m = m' :=
  Matrix.eq_of_load (hm.1.trans hm'.1.symm) (hm.2.1.trans hm'.2.1.symm)
    (hm.2.2.trans hm'.2.2.symm) (fun k hk => h k (by rw [← hm.2.2]; exact hk))

theorem HasShape.wellFormed {m : Matrix α} {R C : Nat} (h : m.HasShape R C) (hR : 1 ≤ R)
    (hC : 1 ≤ C) : m.WellFormed := by
  obtain ⟨h1, h2, h3⟩ := h
  exact ⟨by omega, by omega, by rw [h3, h1, h2]⟩

theorem hasShape_replicate (R C : Nat) :
    (⟨R, C, List.replicate (R * C) 0⟩ : Matrix α).HasShape R C :=
  ⟨rfl, rfl, by simp⟩

theorem load_replicate (R C k : Nat) :
    (⟨R, C, List.replicate (R * C) 0⟩ : Matrix α).load k = 0 :=
  replicate_getD_zero _ _

/-! ## Loops of raw writes -/

theorem forPure_store (f : Nat → α) (m : Matrix α) {R C : Nat} (hm : m.HasShape R C) (n : Nat)
    (hn : n ≤ R * C) :
    (forPure n (fun i acc => acc.store i (f i)) m).HasShape R C ∧
      ∀ k, (forPure n (fun i acc => acc.store i (f i)) m).load k =
        if k < n then f k else m.load k := by
  apply forPure_inv
    (fun n (acc : Matrix α) => n ≤ R * C → (acc.HasShape R C ∧
      ∀ k, acc.load k = if k < n then f k else m.load k))
    n (fun i acc => acc.store i (f i)) m
  · intro _
    exact ⟨hm, fun k => by simp⟩
  · intro k _ acc hacc hk
    obtain ⟨hs, hl⟩ := hacc (by omega)
    refine ⟨hs.store _ _, ?_⟩
    intro j
    rw [load_store _ _ _ _ (by rw [hs.2.2]; omega)]
    by_cases e : j = k
    · subst e; simp
    · rw [if_neg e, hl j]
      by_cases hjk : j < k
      · rw [if_pos hjk, if_pos (by omega)]
      · rw [if_neg hjk, if_neg (by omega)]
  · exact hn

/-- The copy constructor reproduces a matrix whose store has `rows * cols` elements. -/
theorem copy_eq {m : Matrix α} {R C : Nat} (hm : m.HasShape R C) : copy m = m := by
  unfold copy
  rw [hm.1, hm.2.1]
  obtain ⟨hs, hl⟩ := forPure_store (fun i => m.load i)
    (⟨R, C, List.replicate (R * C) 0⟩ : Matrix α) (hasShape_replicate R C) (R * C) (le_refl _)
  apply hs.ext_load hm
  intro k hk
  rw [hl k, if_pos hk]

/-! ## Elementwise addition -/

theorem operator_add_ok {a b : Matrix α} {R C : Nat} (ha : a.HasShape R C)
    (hb : b.HasShape R C) (hR : 1 ≤ R) (hC : 1 ≤ C) :
    ∃ s, operator_add a b = .ok s ∧ s.HasShape R C ∧
      ∀ k, k < R * C → s.load k = a.load k + b.load k := by
  unfold operator_add
  rw [if_neg (by rw [ha.1, ha.2.1, hb.1, hb.2.1]; simp), ha.1, ha.2.1, ctor_ok hR hC]
  obtain ⟨hs, hl⟩ := forPure_store (fun i => a.load i + b.load i)
    (⟨R, C, List.replicate (R * C) 0⟩ : Matrix α) (hasShape_replicate R C) (R * C) (le_refl _)
  refine ⟨_, rfl, hs, ?_⟩
  intro k hk
  rw [hl k, if_pos hk]

theorem operator_add_error {a b : Matrix α} (h : a.rows ≠ b.rows ∨ a.cols ≠ b.cols) :
    operator_add a b = .error .length_error := by
  unfold operator_add
  rw [if_pos h]

/-! ## Sum of the elements -/

theorem sum_eq (m : Matrix α) :
    m.sum = ∑ k in Finset.range (m.rows * m.cols), m.load k := by
  unfold sum
  generalize m.rows * m.cols = n
  induction n with
  | zero => rfl
  | succ k ih =>
    rw [Finset.sum_range_succ, ← ih]
    rfl

/-! ## Scalar multiples -/

theorem scalar_loop_ok (c : α) {m : Matrix α} {R C : Nat} (hm : m.HasShape R C) (n : Nat)
    (hn : n ≤ R * C) :
    ∃ t, forLoop n (fun i (new_mat : Matrix α) =>
        (do
          let v ← new_mat.get_index i
          new_mat.set_index i (v * c) : Except MatError (Matrix α))) m = .ok t ∧
      t.HasShape R C ∧ ∀ k, t.load k = if k < n then m.load k * c else m.load k := by
  have := forLoop_inv
    (fun n (acc : Matrix α) => n ≤ R * C → (acc.HasShape R C ∧
      ∀ k, acc.load k = if k < n then m.load k * c else m.load k))
    n (fun i (new_mat : Matrix α) =>
        (do
          let v ← new_mat.get_index i
          new_mat.set_index i (v * c) : Except MatError (Matrix α))) m
    (fun _ => ⟨hm, fun k => by simp⟩)
    (by
      intro k hk acc hacc
      have hkn : k < R * C := by omega
      obtain ⟨hs, hl⟩ := hacc (by omega)
      have hk' : k < acc.rows * acc.cols := by rw [hs.1, hs.2.1]; exact hkn
      refine ⟨acc.store k (acc.load k * c), ?_, ?_⟩
      · beta_reduce
        rw [get_index_ok hk']
        show acc.set_index k _ = _
        rw [set_index_ok hk']
      · intro _
        refine ⟨hs.store _ _, ?_⟩
        intro j
        rw [load_store _ _ _ _ (by rw [hs.2.2]; omega)]
        by_cases e : j = k
        · subst e
          rw [if_pos rfl, if_pos (Nat.lt_succ_self j), hl j, if_neg (Nat.lt_irrefl j)]
        · rw [if_neg e, hl j]
          by_cases hjk : j < k
          · rw [if_pos hjk, if_pos (by omega)]
          · rw [if_neg hjk, if_neg (by omega)])
  obtain ⟨t, ht, hP⟩ := this
  exact ⟨t, ht, hP hn⟩

theorem scalar_operator_mul_ok (c : α) {m : Matrix α} {R C : Nat} (hm : m.HasShape R C) :
    ∃ t, scalar_operator_mul c m = .ok t ∧ t.HasShape R C ∧
      ∀ k, k < R * C → t.load k = m.load k * c := by
  unfold scalar_operator_mul
  rw [copy_eq hm]
  show ∃ t, forLoop (m.rows * m.cols) _ m = .ok t ∧ _
  rw [hm.1, hm.2.1]
  obtain ⟨t, ht, hs, hl⟩ := scalar_loop_ok c hm (R * C) (le_refl _)
  exact ⟨t, ht, hs, fun k hk => by rw [hl k, if_pos hk]⟩

theorem operator_mul_scalar_ok (c : α) {m : Matrix α} {R C : Nat} (hm : m.HasShape R C) :
    ∃ t, operator_mul_scalar m c = .ok t ∧ t.HasShape R C ∧
      ∀ k, k < R * C → t.load k = m.load k * c := by
  unfold operator_mul_scalar
  rw [copy_eq hm, hm.1, hm.2.1]
  obtain ⟨t, ht, hs, hl⟩ := scalar_loop_ok c hm (R * C) (le_refl _)
  exact ⟨t, ht, hs, fun k hk => by rw [hl k, if_pos hk]⟩

end Matrix

end Mlp

namespace Mlp

theorem except_bind_ok {β γ : Type} (a : β) (f : β → Except MatError γ) :
    (Except.ok a >>= f) = f a := rfl

theorem except_bind_error {β γ : Type} (e : MatError) (f : β → Except MatError γ) :
    ((Except.error e : Except MatError β) >>= f) = Except.error e := rfl

namespace Matrix

variable {α : Type} [LinearOrderedField α]

theorem store_load_self (m : Matrix α) (k : Nat) : m.store k (m.load k) = m := by
  apply @Matrix.eq_of_load α _ (m.store k (m.load k)) m rfl rfl (store_length _ _ _)
  intro j hj
  rw [store_length] at hj
  by_cases hk : k < m.mat_data.length
  · rw [load_store _ _ _ _ hk]
    by_cases e : j = k
    · rw [if_pos e, e]
    · rw [if_neg e]
  · unfold store load
    rw [List.set_eq_of_length_le (by omega)]

/-! ## Loops visiting every position of the matrix once -/

/-- A row-by-row, column-by-column double loop whose body, at a position it has
not visited yet, writes `g i j` there: the result holds `g i j` everywhere. -/
theorem fill_loop (m0 : Matrix α) {R C : Nat} (h0 : m0.HasShape R C) (g : Nat → Nat → α)
    (body : Nat → Nat → Matrix α → Except MatError (Matrix α))
    (hbody : ∀ i j acc, i < R → j < C → acc.HasShape R C → acc.entry i j = m0.entry i j →
      body i j acc = .ok (acc.store (i * C + j) (g i j))) :
    ∃ t, forLoop R (fun i acc => forLoop C (fun j acc => body i j acc) acc) m0 = .ok t ∧
      t.HasShape R C ∧ ∀ i j, i < R → j < C → t.entry i j = g i j := by
  have outer := forLoop_inv
    (fun n (acc : Matrix α) => acc.HasShape R C ∧
      ∀ i j, i < R → j < C → acc.entry i j = if i < n then g i j else m0.entry i j)
    R (fun i acc => forLoop C (fun j acc => body i j acc) acc) m0
    ⟨h0, fun i j _ _ => by simp⟩
    (by
      intro i hi acc ⟨hs, hacc⟩
      have inner := forLoop_inv
        (fun n (a : Matrix α) => a.HasShape R C ∧
          ∀ i' j', i' < R → j' < C →
            a.entry i' j' = if i' < i ∨ (i' = i ∧ j' < n) then g i' j' else m0.entry i' j')
        C (fun j acc => body i j acc) acc
        ⟨hs, fun i' j' hi' hj' => by
          rw [hacc i' j' hi' hj']
          by_cases e : i' < i
          · rw [if_pos e, if_pos (Or.inl e)]
          · rw [if_neg e, if_neg (by omega)]⟩
        (by
          intro j hj a ⟨hsa, ha⟩
          have hcur : a.entry i j = m0.entry i j := by
            rw [ha i j hi hj, if_neg (by omega)]
          refine ⟨_, hbody i j a hi hj hsa hcur, hsa.store _ _, ?_⟩
          intro i' j' hi' hj'
          rw [entry_store hsa hi hj hj']
          by_cases e : i' = i ∧ j' = j
          · obtain ⟨rfl, rfl⟩ := e
            rw [if_pos ⟨rfl, rfl⟩, if_pos (Or.inr ⟨rfl, Nat.lt_succ_self _⟩)]
          · rw [if_neg e, ha i' j' hi' hj']
            by_cases e2 : i' < i ∨ (i' = i ∧ j' < j)
            · rw [if_pos e2, if_pos (by omega)]
            · rw [if_neg e2, if_neg (by omega)])
      obtain ⟨t, ht, hst, hentries⟩ := inner
      refine ⟨t, ht, hst, ?_⟩
      intro i' j' hi' hj'
      rw [hentries i' j' hi' hj']
      by_cases e : i' < i + 1
      · rw [if_pos e, if_pos (by omega)]
      · rw [if_neg e, if_neg (by omega)])
  obtain ⟨t, ht, hst, hentries⟩ := outer
  exact ⟨t, ht, hst, fun i j hi hj => by rw [hentries i j hi hj, if_pos hi]⟩

end Matrix

open Matrix

variable {α : Type} [LinearOrderedField α]

/-! ## The rectified-linear activation -/

theorem relu_ok {A : Matrix α} {R C : Nat} (hA : A.HasShape R C) (hR : 1 ≤ R) (hC : 1 ≤ C) :
    ∃ B, relu A = .ok B ∧ B.HasShape R C ∧
      ∀ i j, i < R → j < C → B.entry i j = if A.entry i j ≥ 0 then A.entry i j else 0 := by
  unfold relu
  unfold get_rows get_cols
  rw [hA.1, hA.2.1, ctor_ok hR hC, except_bind_ok]
  apply fill_loop _ (hasShape_replicate R C) (fun i j => if A.entry i j ≥ 0 then A.entry i j else 0)
    (fun i j acc =>
      (do
        let v ← A.get_const i j
        if v ≥ 0 then do
          let w ← A.get_const i j
          acc.set i j w
        else acc.set i j 0 : Except MatError (Matrix α)))
  intro i j acc hi hj hacc _
  have hi' : i < A.rows := by rw [hA.1]; exact hi
  have hj' : j < A.cols := by rw [hA.2.1]; exact hj
  have hia : i < acc.rows := by rw [hacc.1]; exact hi
  have hja : j < acc.cols := by rw [hacc.2.1]; exact hj
  rw [get_const_ok hi' hj', except_bind_ok]
  by_cases h : A.entry i j ≥ 0
  · rw [if_pos h, if_pos h, except_bind_ok, set_ok hia hja, hacc.2.1]
  · rw [if_neg h, if_neg h, set_ok hia hja, hacc.2.1]

/-! ## The normalised exponential (C6) -/

theorem softmax_exp_loop (exp : α → α) {A : Matrix α} {R C : Nat} (hA : A.HasShape R C)
    (n : Nat) (hn : n ≤ R * C) :
    ∃ t, forLoop n (fun i (acc : Matrix α) =>
        (do
          let v ← A.get_index_const i
          acc.set_index i (exp v) : Except MatError (Matrix α)))
        (⟨R, C, List.replicate (R * C) 0⟩ : Matrix α) = .ok t ∧
      t.HasShape R C ∧ ∀ k, t.load k = if k < n then exp (A.load k) else 0 := by
  have := forLoop_inv
    (fun n (acc : Matrix α) => n ≤ R * C → (acc.HasShape R C ∧
      ∀ k, acc.load k = if k < n then exp (A.load k) else 0))
    n (fun i (acc : Matrix α) =>
        (do
          let v ← A.get_index_const i
          acc.set_index i (exp v) : Except MatError (Matrix α)))
    (⟨R, C, List.replicate (R * C) 0⟩ : Matrix α)
    (fun _ => ⟨hasShape_replicate R C, fun k => by
      rw [if_neg (Nat.not_lt_zero k)]; exact load_replicate R C k⟩)
    (by
      intro k hk acc hacc
      have hkn : k < R * C := by omega
      obtain ⟨hs, hl⟩ := hacc (by omega)
      have hkA : k < A.rows * A.cols := by rw [hA.1, hA.2.1]; exact hkn
      have hk' : k < acc.rows * acc.cols := by rw [hs.1, hs.2.1]; exact hkn
      refine ⟨acc.store k (exp (A.load k)), ?_, ?_⟩
      · beta_reduce
        rw [get_index_const_ok hkA, except_bind_ok, set_index_ok hk']
      · intro _
        refine ⟨hs.store _ _, ?_⟩
        intro j
        rw [load_store _ _ _ _ (by rw [hs.2.2]; omega)]
        by_cases e : j = k
        · subst e
          rw [if_pos rfl, if_pos (Nat.lt_succ_self j)]
        · rw [if_neg e, hl j]
          by_cases hjk : j < k
          · rw [if_pos hjk, if_pos (by omega)]
          · rw [if_neg hjk, if_neg (by omega)])
  obtain ⟨t, ht, hP⟩ := this
  exact ⟨t, ht, hP hn⟩

theorem softmax_ok (exp : α → α) {A : Matrix α} {R C : Nat} (hA : A.HasShape R C)
    (hR : 1 ≤ R) (hC : 1 ≤ C) :
    ∃ S, softmax exp A = .ok S ∧ S.HasShape R C ∧
      ∀ k, k < R * C →
        S.load k = exp (A.load k) * (1 / ∑ j in Finset.range (R * C), exp (A.load j)) := by
  unfold softmax
  unfold get_rows get_cols
  rw [hA.1, hA.2.1, ctor_ok hR hC, except_bind_ok]
  obtain ⟨t, ht, hs, hl⟩ := softmax_exp_loop exp hA (R * C) (le_refl _)
  rw [ht, except_bind_ok]
  obtain ⟨S, hS, hSs, hSl⟩ := scalar_operator_mul_ok (1 / t.sum) hs
  refine ⟨S, hS, hSs, ?_⟩
  intro k hk
  rw [hSl k hk, hl k, if_pos hk, sum_eq, hs.1, hs.2.1]
  congr 2
  apply Finset.sum_congr rfl
  intro j hj
  rw [hl j, if_pos (Finset.mem_range.mp hj)]

/-- C6. For a well-formed matrix of reals, `softmax` returns a matrix of the
same dimensions whose element `k` is `exp(A[k])` divided by the sum of all
`exp(A[j])`, and whose elements sum to `1`. -/
theorem softmax_spec (A : Matrix ℝ) (hA : A.WellFormed) :
    ∃ S, softmax Real.exp A = .ok S ∧ S.rows = A.rows ∧ S.cols = A.cols ∧
      S.mat_data.length = A.rows * A.cols ∧
      (∀ k, k < A.rows * A.cols →
        S.get_index_const k =
          .ok (Real.exp (A.load k) / ∑ j in Finset.range (A.rows * A.cols), Real.exp (A.load j))) ∧
      S.sum = 1 := by
  obtain ⟨S, hS, hs, hl⟩ := softmax_ok Real.exp hA.hasShape hA.1 hA.2.1
  have hpos : 0 < ∑ j in Finset.range (A.rows * A.cols), Real.exp (A.load j) := by
    apply Finset.sum_pos
    · intro j _
      exact Real.exp_pos _
    · exact ⟨0, Finset.mem_range.mpr (Nat.mul_pos hA.1 hA.2.1)⟩
  refine ⟨S, hS, hs.1, hs.2.1, hs.2.2, ?_, ?_⟩
  · intro k hk
    rw [get_index_const_ok (by rw [hs.1, hs.2.1]; exact hk), hl k hk]
    congr 1
    field_simp
  · rw [sum_eq, hs.1, hs.2.1]
    rw [Finset.sum_congr rfl (fun k hk => hl k (Finset.mem_range.mp hk)), ← Finset.sum_mul]
    field_simp

end Mlp

namespace Mlp

open Matrix

variable {α : Type} [LinearOrderedField α]

/-! ## Dense layers (C9) -/

theorem Dense.ctor_weights {W b : Matrix α} (act : Activation_Func α) (hW : W.WellFormed) :
    (Dense.ctor W b act)._weights = W :=
  copy_eq hW.hasShape

theorem Dense.ctor_bias {W b : Matrix α} (act : Activation_Func α) (hb : b.WellFormed) :
    (Dense.ctor W b act)._bias = b :=
  copy_eq hb.hasShape

/-- A layer applied to an input of matching shape: the product, the shifted
product and the activation of the latter. -/
theorem Dense.layer_call_ok {W b x : Matrix α} (act : Activation_Func α) {R K p : Nat}
    (hW : W.HasShape R K) (hb : b.HasShape R p) (hx : x.HasShape K p)
    (hR : 1 ≤ R) (hK : 1 ≤ K) (hp : 1 ≤ p) :
    ∃ P S, operator_mul W x = .ok P ∧ operator_add P b = .ok S ∧ P.HasShape R p ∧
      S.HasShape R p ∧
      (∀ i j, i < R → j < p →
        P.entry i j = ∑ k in Finset.range K, W.entry i k * x.entry k j) ∧
      (∀ k, k < R * p → S.load k = P.load k + b.load k) ∧
      (Dense.ctor W b act).operator_call x = act S := by
  have hWw := hW.wellFormed hR hK
  have hbw := hb.wellFormed hR hp
  have hxw := hx.wellFormed hK hp
  obtain ⟨P, hP, hPs, hPe⟩ := operator_mul_ok W x hWw hxw (by rw [hW.2.1, hx.1])
  rw [hW.1, hx.2.1] at hPs
  obtain ⟨S, hS, hSs, hSl⟩ := operator_add_ok hPs hb hR hp
  refine ⟨P, S, hP, hS, hPs, hSs, ?_, hSl, ?_⟩
  · intro i j hi hj
    have := hPe i j (by rw [hW.1]; exact hi) (by rw [hx.2.1]; exact hj)
    rw [hW.2.1] at this
    exact this
  · unfold Dense.operator_call
    rw [Dense.ctor_weights act hWw, Dense.ctor_bias act hbw, hP, except_bind_ok, hS,
      except_bind_ok]
    rfl

/-- C9. A layer built from weights `W`, bias `b` and an activation `f` that
never throws: the call throws the size error exactly when `cols(W) != rows(x)`
or the shape of `b` differs from `(rows(W), cols(x))`; otherwise it returns
`f((W * x) + b)`.  The call is a function of the layer, whose weights, bias and
activation read back as they were given. -/
theorem Dense.layer_call_spec (W b x : Matrix α) (f : Matrix α → Matrix α)
    (hW : W.WellFormed) (hb : b.WellFormed) (hx : x.WellFormed) :
    ((Dense.ctor W b (fun m => .ok (f m))).operator_call x = .error .length_error ↔
      (W.cols ≠ x.rows ∨ (b.rows, b.cols) ≠ (W.rows, x.cols))) ∧
    (¬ (W.cols ≠ x.rows ∨ (b.rows, b.cols) ≠ (W.rows, x.cols)) →
      ∃ P S, operator_mul W x = .ok P ∧ operator_add P b = .ok S ∧
        (Dense.ctor W b (fun m => .ok (f m))).operator_call x = .ok (f S)) ∧
    (Dense.ctor W b (fun m => .ok (f m))).get_weights = W ∧
    (Dense.ctor W b (fun m => .ok (f m))).get_bias = b ∧
    (Dense.ctor W b (fun m => .ok (f m))).get_activation = (fun m => .ok (f m)) := by
  have hgood : ¬ (W.cols ≠ x.rows ∨ (b.rows, b.cols) ≠ (W.rows, x.cols)) →
      ∃ P S, operator_mul W x = .ok P ∧ operator_add P b = .ok S ∧
        (Dense.ctor W b (fun m => .ok (f m))).operator_call x = .ok (f S) := by
    intro hc
    have h1 : W.cols = x.rows := by
      by_contra h; exact hc (Or.inl h)
    have h2 : (b.rows, b.cols) = (W.rows, x.cols) := by
      by_contra h; exact hc (Or.inr h)
    have h3 : b.rows = W.rows := congrArg Prod.fst h2
    have h4 : b.cols = x.cols := congrArg Prod.snd h2
    obtain ⟨P, S, hP, hS, _, _, _, _, hcall⟩ :=
      Dense.layer_call_ok (fun m => .ok (f m))
        (show W.HasShape W.rows W.cols from hW.hasShape)
        (show b.HasShape W.rows x.cols from ⟨h3, h4, by rw [hb.2.2, h3, h4]⟩)
        (show x.HasShape W.cols x.cols from ⟨h1.symm, rfl, by rw [hx.2.2, h1]⟩)
        hW.1 hW.2.1 hx.2.1
    exact ⟨P, S, hP, hS, hcall⟩
  refine ⟨⟨?_, ?_⟩, hgood, ?_, ?_, rfl⟩
  · intro hfail
    by_contra hc
    obtain ⟨P, S, _, _, hcall⟩ := hgood hc
    rw [hcall] at hfail
    cases hfail
  · intro hc
    unfold Dense.operator_call
    rw [Dense.ctor_weights _ hW, Dense.ctor_bias _ hb]
    by_cases h1 : W.cols = x.rows
    · obtain ⟨P, hP, hPs, _⟩ := operator_mul_ok W x hW hx h1
      rw [hP, except_bind_ok]
      have h2 : (b.rows, b.cols) ≠ (W.rows, x.cols) := by
        rcases hc with hc | hc
        · exact absurd h1 hc
        · exact hc
      have h3 : P.rows ≠ b.rows ∨ P.cols ≠ b.cols := by
        rw [hPs.1, hPs.2.1]
        by_contra h
        push_neg at h
        exact h2 (by rw [h.1, h.2])
      rw [operator_add_error h3]
      rfl
    · rw [operator_mul_error W x h1]
      rfl
  · unfold Dense.get_weights
    rw [Dense.ctor_weights _ hW]
    exact copy_eq hW.hasShape
  · unfold Dense.get_bias
    rw [Dense.ctor_bias _ hb]
    exact copy_eq hb.hasShape

end Mlp

namespace Mlp

open Matrix

variable {α : Type} [LinearOrderedField α]

/-! ## The network (C7, C8) -/

theorem Matrix.load_eq_zero_of_forall {m : Matrix α} (h : ∀ x, x ∈ m.mat_data → x = 0)
    (k : Nat) : m.load k = 0 := by
  by_cases hk : k < m.mat_data.length
  · rw [load_eq_getElem _ _ hk]
    exact h _ (List.getElem_mem hk)
  · exact load_of_length_le _ _ (by omega)

theorem Matrix.entry_col_zero {m : Matrix α} {R : Nat} (h : m.HasShape R 1) (i : Nat) :
    m.entry i 0 = m.load i := by
  unfold entry
  rw [h.2.1]
  simp

theorem Matrix.vectorize_hasShape {m : Matrix α} {R C : Nat} (h : m.HasShape R C) :
    m.vectorize.HasShape (R * C) 1 := by
  obtain ⟨h1, h2, h3⟩ := h
  refine ⟨?_, rfl, ?_⟩
  · show m.rows * m.cols = R * C
    rw [h1, h2]
  · show m.mat_data.length = R * C * 1
    rw [h3, Nat.mul_one]

/-- A `relu` layer on a column vector: the result is a column of the layer's
height, and it is zero when the bias and the input are zero. -/
theorem Dense.relu_layer_ok {W b x : Matrix α} {R K : Nat}
    (hW : W.HasShape R K) (hb : b.HasShape R 1) (hx : x.HasShape K 1)
    (hR : 1 ≤ R) (hK : 1 ≤ K) :
    ∃ y, (Dense.ctor W b relu).operator_call x = .ok y ∧ y.HasShape R 1 ∧
      ((∀ k, b.load k = 0) → (∀ k, x.load k = 0) → ∀ k, k < R → y.load k = 0) := by
  obtain ⟨P, S, _, _, hPs, hSs, hPe, hSl, hcall⟩ :=
    Dense.layer_call_ok relu hW hb hx hR hK (le_refl 1)
  obtain ⟨y, hy, hys, hye⟩ := relu_ok hSs hR (le_refl 1)
  refine ⟨y, hcall.trans hy, hys, ?_⟩
  intro hbz hxz k hk
  have hP0 : P.entry k 0 = 0 := by
    rw [hPe k 0 hk Nat.zero_lt_one]
    apply Finset.sum_eq_zero
    intro j _
    rw [entry_col_zero hx, hxz j, mul_zero]
  rw [entry_col_zero hPs] at hP0
  have hS0 : S.load k = 0 := by
    rw [hSl k (by omega), hbz k, hP0, add_zero]
  have := hye k 0 hk Nat.zero_lt_one
  rw [entry_col_zero hys, entry_col_zero hSs, hS0] at this
  rw [this]
  simp

/-- The `softmax` layer on a column vector. -/
theorem Dense.softmax_layer_ok (exp : α → α) {W b x : Matrix α} {R K : Nat}
    (hW : W.HasShape R K) (hb : b.HasShape R 1) (hx : x.HasShape K 1)
    (hR : 1 ≤ R) (hK : 1 ≤ K) :
    ∃ (s y : Matrix α), (Dense.ctor W b (softmax exp)).operator_call x = .ok y ∧
      y.HasShape R 1 ∧
      (∀ k, k < R →
        y.load k = exp (s.load k) * (1 / ∑ j in Finset.range R, exp (s.load j))) ∧
      ((∀ k, b.load k = 0) → (∀ k, x.load k = 0) → ∀ k, k < R → s.load k = 0) := by
  obtain ⟨P, S, hP, _, hPs, hSs, hPe, hSl, hcall⟩ :=
    Dense.layer_call_ok (softmax exp) hW hb hx hR hK (le_refl 1)
  obtain ⟨y, hy, hys, hyl⟩ := softmax_ok exp hSs hR (le_refl 1)
  refine ⟨S, y, hcall.trans hy, hys, ?_, ?_⟩
  · intro k hk
    have := hyl k (by omega)
    rw [Nat.mul_one] at this
    exact this
  · intro hbz hxz k hk
    have hP0 : P.entry k 0 = 0 := by
      rw [hPe k 0 hk Nat.zero_lt_one]
      apply Finset.sum_eq_zero
      intro j _
      rw [entry_col_zero hx, hxz j, mul_zero]
    rw [entry_col_zero hPs] at hP0
    rw [hSl k (by omega), hbz k, hP0, add_zero]

/-- The whole pipeline on an image of the fixed shape, for weights and biases
of the fixed shapes: every layer succeeds, the last one yields a normalised
exponential of a `10 x 1` column, and the result is its `argmax` with the
element found there. -/
theorem MlpNetwork.network_call_ok (exp : α → α) (weights biases : Fin MLP_SIZE → Matrix α)
    (img : Matrix α)
    (hw : ∀ i, (weights i).HasShape (weights_dims i).rows (weights_dims i).cols)
    (hb : ∀ i, (biases i).HasShape (bias_dims i).rows (bias_dims i).cols)
    (himg : img.HasShape img_dims.rows img_dims.cols) :
    ∃ (r1 r2 r3 s4 r4 : Matrix α),
      (MlpNetwork.ctor exp weights biases)._layer1.operator_call img.vectorize = .ok r1 ∧
      (MlpNetwork.ctor exp weights biases)._layer2.operator_call r1 = .ok r2 ∧
      (MlpNetwork.ctor exp weights biases)._layer3.operator_call r2 = .ok r3 ∧
      (MlpNetwork.ctor exp weights biases)._layer4.operator_call r3 = .ok r4 ∧
      r4.HasShape 10 1 ∧
      (∀ k, k < 10 →
        r4.load k = exp (s4.load k) * (1 / ∑ j in Finset.range 10, exp (s4.load j))) ∧
      (MlpNetwork.ctor exp weights biases).operator_call img =
        .ok (⟨r4.argmax, r4.load r4.argmax⟩, img.vectorize) ∧
      ((∀ i k, (biases i).load k = 0) → (∀ k, img.load k = 0) →
        ∀ k, k < 10 → s4.load k = 0) := by
  have hw0 : (weights 0).HasShape 128 784 := hw 0
  have hw1 : (weights 1).HasShape 64 128 := hw 1
  have hw2 : (weights 2).HasShape 20 64 := hw 2
  have hw3 : (weights 3).HasShape 10 20 := hw 3
  have hb0 : (biases 0).HasShape 128 1 := hb 0
  have hb1 : (biases 1).HasShape 64 1 := hb 1
  have hb2 : (biases 2).HasShape 20 1 := hb 2
  have hb3 : (biases 3).HasShape 10 1 := hb 3
  have hv : img.vectorize.HasShape 784 1 := vectorize_hasShape (show img.HasShape 28 28 from himg)
  obtain ⟨r1, h1, hs1, hz1⟩ := Dense.relu_layer_ok hw0 hb0 hv (by norm_num) (by norm_num)
  obtain ⟨r2, h2, hs2, hz2⟩ := Dense.relu_layer_ok hw1 hb1 hs1 (by norm_num) (by norm_num)
  obtain ⟨r3, h3, hs3, hz3⟩ := Dense.relu_layer_ok hw2 hb2 hs2 (by norm_num) (by norm_num)
  obtain ⟨s4, r4, h4, hs4, hl4, hz4⟩ :=
    Dense.softmax_layer_ok exp hw3 hb3 hs3 (by norm_num) (by norm_num)
  have hidx : r4.argmax < r4.rows * r4.cols := argmax_lt (by rw [hs4.1, hs4.2.1]; norm_num)
  have zero_beyond : ∀ {m : Matrix α} {R : Nat}, m.HasShape R 1 →
      (∀ k, k < R → m.load k = 0) → ∀ k, m.load k = 0 := by
    intro m R hm hlt k
    by_cases hk : k < R
    · exact hlt k hk
    · exact load_of_length_le _ _ (by rw [hm.2.2]; omega)
  have h1' : (MlpNetwork.ctor exp weights biases)._layer1.operator_call img.vectorize =
      .ok r1 := h1
  have h2' : (MlpNetwork.ctor exp weights biases)._layer2.operator_call r1 = .ok r2 := h2
  have h3' : (MlpNetwork.ctor exp weights biases)._layer3.operator_call r2 = .ok r3 := h3
  have h4' : (MlpNetwork.ctor exp weights biases)._layer4.operator_call r3 = .ok r4 := h4
  refine ⟨r1, r2, r3, s4, r4, h1', h2', h3', h4', hs4, hl4, ?_, ?_⟩
  · unfold MlpNetwork.operator_call
    have hassign : operator_assign img.vectorize img.vectorize true = img.vectorize := rfl
    simp only [hassign]
    rw [h1', except_bind_ok, h2', except_bind_ok, h3', except_bind_ok, h4', except_bind_ok,
      get_index_ok hidx, except_bind_ok]
    rfl
  · intro hbz hxz
    have z1 := zero_beyond hs1 (hz1 (hbz 0) (fun k => hxz k))
    have z2 := zero_beyond hs2 (hz2 (hbz 1) z1)
    have z3 := zero_beyond hs3 (hz3 (hbz 2) z2)
    exact hz4 (hbz 3) z3

end Mlp

namespace Mlp

open Matrix

/-- C8. For weights and biases of the fixed shapes and a `28 x 28` image, the
call succeeds: the four layers yield `r1, ..., r4` with `r4` of shape `10 x 1`,
and the returned pair holds an index `value <= 9`, the element of `r4` at that
index, this element is the maximum of `r4`, and it lies in `[0, 1]`. -/
theorem MlpNetwork.network_call_spec (weights biases : Fin MLP_SIZE → Matrix ℝ)
    (img : Matrix ℝ)
    (hw : ∀ i, (weights i).HasShape (weights_dims i).rows (weights_dims i).cols)
    (hb : ∀ i, (biases i).HasShape (bias_dims i).rows (bias_dims i).cols)
    (himg : img.HasShape img_dims.rows img_dims.cols) :
    ∃ (r1 r2 r3 r4 : Matrix ℝ) (d : digit ℝ) (vec : Matrix ℝ),
      (MlpNetwork.ctor Real.exp weights biases)._layer1.operator_call img.vectorize = .ok r1 ∧
      (MlpNetwork.ctor Real.exp weights biases)._layer2.operator_call r1 = .ok r2 ∧
      (MlpNetwork.ctor Real.exp weights biases)._layer3.operator_call r2 = .ok r3 ∧
      (MlpNetwork.ctor Real.exp weights biases)._layer4.operator_call r3 = .ok r4 ∧
      r4.HasShape 10 1 ∧
      (MlpNetwork.ctor Real.exp weights biases).operator_call img = .ok (d, vec) ∧
      d.value ≤ 9 ∧
      r4.get_index d.value = .ok d.probability ∧
      (∀ k, k < 10 → r4.load k ≤ d.probability) ∧
      0 ≤ d.probability ∧ d.probability ≤ 1 := by
  obtain ⟨r1, r2, r3, s4, r4, h1, h2, h3, h4, hs4, hl4, hcall, _⟩ :=
    MlpNetwork.network_call_ok Real.exp weights biases img hw hb himg
  have hn : r4.rows * r4.cols = 10 := by rw [hs4.1, hs4.2.1]
  have hidx : r4.argmax < 10 := by
    have := @argmax_lt ℝ _ r4 (by rw [hn]; norm_num)
    rw [hn] at this
    exact this
  have hpos : 0 < ∑ j in Finset.range 10, Real.exp (s4.load j) := by
    apply Finset.sum_pos
    · intro j _
      exact Real.exp_pos _
    · exact ⟨0, Finset.mem_range.mpr (by norm_num)⟩
  refine ⟨r1, r2, r3, r4, ⟨r4.argmax, r4.load r4.argmax⟩, img.vectorize, h1, h2, h3, h4, hs4,
    hcall, by show r4.argmax ≤ 9; omega, get_index_ok (by rw [hn]; exact hidx), ?_, ?_, ?_⟩
  · intro k hk
    exact argmax_ge r4 k (by rw [hn]; exact hk)
  · show 0 ≤ r4.load r4.argmax
    rw [hl4 _ hidx]
    exact le_of_lt (mul_pos (Real.exp_pos _) (one_div_pos.mpr hpos))
  · show r4.load r4.argmax ≤ 1
    rw [hl4 _ hidx, mul_one_div, div_le_one hpos]
    exact Finset.single_le_sum (f := fun j => Real.exp (s4.load j))
      (fun j _ => le_of_lt (Real.exp_pos _)) (Finset.mem_range.mpr hidx)

/-- C7. For weights of the fixed shapes with any entries and all-zero biases of
the fixed shapes, the call on the all-zero `28 x 28` image returns class index
`0` with confidence `1/10`. -/
theorem MlpNetwork.network_call_zero_image (weights biases : Fin MLP_SIZE → Matrix ℝ)
    (img : Matrix ℝ)
    (hw : ∀ i, (weights i).HasShape (weights_dims i).rows (weights_dims i).cols)
    (hb : ∀ i, (biases i).HasShape (bias_dims i).rows (bias_dims i).cols)
    (hbz : ∀ i x, x ∈ (biases i).mat_data → x = 0)
    (himg : img.HasShape img_dims.rows img_dims.cols)
    (hz : ∀ x, x ∈ img.mat_data → x = 0) :
    ∃ vec, (MlpNetwork.ctor Real.exp weights biases).operator_call img =
      .ok (⟨0, 1 / 10⟩, vec) := by
  obtain ⟨r1, r2, r3, s4, r4, _, _, _, _, hs4, hl4, hcall, hzero⟩ :=
    MlpNetwork.network_call_ok Real.exp weights biases img hw hb himg
  have hs0 := hzero (fun i k => load_eq_zero_of_forall (hbz i) k)
    (fun k => load_eq_zero_of_forall hz k)
  have hsum : ∑ j in Finset.range 10, Real.exp (s4.load j) = 10 := by
    rw [Finset.sum_congr rfl (fun j hj => by rw [hs0 j (Finset.mem_range.mp hj), Real.exp_zero])]
    simp
  have hval : ∀ k, k < 10 → r4.load k = 1 / 10 := by
    intro k hk
    rw [hl4 k hk, hs0 k hk, Real.exp_zero, hsum, one_mul]
  have hn : r4.rows * r4.cols = 10 := by rw [hs4.1, hs4.2.1]
  have hidx : r4.argmax < 10 := by
    have := @argmax_lt ℝ _ r4 (by rw [hn]; norm_num)
    rw [hn] at this
    exact this
  have harg : r4.argmax = 0 := by
    by_contra hne
    have hlt := argmax_first r4 0 (Nat.pos_of_ne_zero hne)
    rw [hval 0 (by norm_num), hval _ hidx] at hlt
    exact lt_irrefl _ hlt
  refine ⟨img.vectorize, ?_⟩
  rw [hcall, harg, hval 0 (by norm_num)]

end Mlp

namespace Mlp

namespace Matrix

variable {α : Type} [LinearOrderedField α]

/-! ## The helpers of `rref` -/

theorem find_pivot_loop_ok {m : Matrix α} {R C : Nat} (hm : m.HasShape R C) {lead : Nat}
    (hl : lead < C) (trips r : Nat) (hr : r + trips = R) :
    (find_pivot_loop m lead trips r = .ok none ∧ ∀ i, r ≤ i → i < R → m.entry i lead = 0) ∨
    ∃ p, find_pivot_loop m lead trips r = .ok (some p) ∧ r ≤ p ∧ p < R ∧
      m.entry p lead ≠ 0 ∧ ∀ i, r ≤ i → i < p → m.entry i lead = 0 := by
  induction trips generalizing r with
  | zero =>
    left
    exact ⟨rfl, fun i h1 h2 => by omega⟩
  | succ t ih =>
    have hrR : r < R := by omega
    have step : find_pivot_loop m lead (t + 1) r =
        if m.entry r lead ≠ 0 then .ok (some r) else find_pivot_loop m lead t (r + 1) := by
      rw [find_pivot_loop, get_const_ok (by rw [hm.1]; exact hrR) (by rw [hm.2.1]; exact hl)]
    rw [step]
    by_cases hv : m.entry r lead ≠ 0
    · right
      rw [if_pos hv]
      exact ⟨r, rfl, le_refl r, hrR, hv, fun i h1 h2 => by omega⟩
    · have hv0 : m.entry r lead = 0 := not_not.mp hv
      rw [if_neg hv]
      rcases ih (r + 1) (by omega) with ⟨h1, h2⟩ | ⟨p, h1, h2, h3, h4, h5⟩
      · left
        refine ⟨h1, ?_⟩
        intro i hi hiR
        rcases Nat.eq_or_lt_of_le hi with rfl | hlt
        · exact hv0
        · exact h2 i hlt hiR
      · right
        refine ⟨p, h1, by omega, h3, h4, ?_⟩
        intro i hi hip
        rcases Nat.eq_or_lt_of_le hi with rfl | hlt
        · exact hv0
        · exact h5 i hlt hip

theorem find_pivot_row_ok {m : Matrix α} {R C : Nat} (hm : m.HasShape R C) {r lead : Nat}
    (hr : r ≤ R) (hl : lead < C) :
    (find_pivot_row m r lead = .ok none ∧ ∀ i, r ≤ i → i < R → m.entry i lead = 0) ∨
    ∃ p, find_pivot_row m r lead = .ok (some p) ∧ r ≤ p ∧ p < R ∧
      m.entry p lead ≠ 0 ∧ ∀ i, r ≤ i → i < p → m.entry i lead = 0 := by
  unfold find_pivot_row
  rw [hm.1]
  exact find_pivot_loop_ok hm hl (R - r) r (by omega)

theorem swap_rows_ok {m : Matrix α} {R C : Nat} (hm : m.HasShape R C) {row1 row2 : Nat}
    (h1 : row1 < R) (h2 : row2 < R) :
    ∃ t, swap_rows m row1 row2 = .ok t ∧ t.HasShape R C ∧
      ∀ i j, j < C → t.entry i j =
        if i = row2 then m.entry row1 j else if i = row1 then m.entry row2 j
        else m.entry i j := by
  unfold swap_rows
  rw [hm.2.1]
  have := forLoop_inv
    (fun n (acc : Matrix α) => n ≤ C → (acc.HasShape R C ∧
      ∀ i j, j < C → acc.entry i j =
        if j < n then
          (if i = row2 then m.entry row1 j else if i = row1 then m.entry row2 j
           else m.entry i j)
        else m.entry i j))
    C (fun c (m : Matrix α) =>
      (do
        let temp ← m.get row1 c
        let v ← m.get row2 c
        let m1 ← m.set row1 c v
        m1.set row2 c temp : Except MatError (Matrix α))) m
    (fun _ => ⟨hm, fun i j _ => by simp⟩)
    (by
      intro c hc acc hacc
      obtain ⟨hs, he⟩ := hacc (by omega)
      have r1 : row1 < acc.rows := by rw [hs.1]; exact h1
      have r2 : row2 < acc.rows := by rw [hs.1]; exact h2
      have cc : c < acc.cols := by rw [hs.2.1]; exact hc
      refine ⟨(acc.store (row1 * C + c) (acc.entry row2 c)).store (row2 * C + c)
        (acc.entry row1 c), ?_, ?_⟩
      · beta_reduce
        rw [get_ok r1 cc, except_bind_ok, get_ok r2 cc, except_bind_ok, set_ok r1 cc,
          except_bind_ok, set_ok (show row2 < (acc.store _ _).rows from r2)
            (show c < (acc.store _ _).cols from cc)]
        simp only [store_cols, hs.2.1]
      · intro _
        refine ⟨(hs.store _ _).store _ _, ?_⟩
        intro i j hj
        rw [entry_store (hs.store _ _) h2 hc hj, entry_store hs h1 hc hj,
          he row1 c hc, he row2 c hc, he i j hj]
        simp only [Nat.lt_irrefl, if_false]
        by_cases hjc : j = c
        · subst hjc
          simp only [Nat.lt_succ_self, if_true, and_true, Nat.lt_irrefl, if_false]
        · have e1 : ¬ (i = row2 ∧ j = c) := fun h => hjc h.2
          have e2 : ¬ (i = row1 ∧ j = c) := fun h => hjc h.2
          rw [if_neg e1, if_neg e2]
          by_cases hlt : j < c
          · have hlt' : j < c + 1 := by omega
            simp only [hlt, hlt', if_true]
          · have hlt' : ¬ j < c + 1 := by omega
            simp only [hlt, hlt', if_false])
  obtain ⟨t, ht, hP⟩ := this
  obtain ⟨hs, he⟩ := hP (le_refl C)
  exact ⟨t, ht, hs, fun i j hj => by rw [he i j hj, if_pos hj]⟩

theorem divide_row_ok {m : Matrix α} {R C : Nat} (hm : m.HasShape R C) {row : Nat}
    (h1 : row < R) (divisor : α) :
    ∃ t, divide_row m row divisor = .ok t ∧ t.HasShape R C ∧
      ∀ i j, j < C → t.entry i j =
        if i = row then m.entry row j / divisor else m.entry i j := by
  unfold divide_row
  rw [hm.2.1]
  have := forLoop_inv
    (fun n (acc : Matrix α) => n ≤ C → (acc.HasShape R C ∧
      ∀ i j, j < C → acc.entry i j =
        if j < n then (if i = row then m.entry row j / divisor else m.entry i j)
        else m.entry i j))
    C (fun c (m : Matrix α) =>
      (do
        let v ← m.get row c
        m.set row c (v / divisor) : Except MatError (Matrix α))) m
    (fun _ => ⟨hm, fun i j _ => by simp⟩)
    (by
      intro c hc acc hacc
      obtain ⟨hs, he⟩ := hacc (by omega)
      have r1 : row < acc.rows := by rw [hs.1]; exact h1
      have cc : c < acc.cols := by rw [hs.2.1]; exact hc
      refine ⟨acc.store (row * C + c) (acc.entry row c / divisor), ?_, ?_⟩
      · beta_reduce
        rw [get_ok r1 cc, except_bind_ok, set_ok r1 cc, hs.2.1]
      · intro _
        refine ⟨hs.store _ _, ?_⟩
        intro i j hj
        rw [entry_store hs h1 hc hj, he row c hc, he i j hj]
        simp only [Nat.lt_irrefl, if_false]
        by_cases hjc : j = c
        · subst hjc
          simp only [Nat.lt_succ_self, if_true, and_true, Nat.lt_irrefl, if_false]
        · have e1 : ¬ (i = row ∧ j = c) := fun h => hjc h.2
          rw [if_neg e1]
          by_cases hlt : j < c
          · have hlt' : j < c + 1 := by omega
            simp only [hlt, hlt', if_true]
          · have hlt' : ¬ j < c + 1 := by omega
            simp only [hlt, hlt', if_false])
  obtain ⟨t, ht, hP⟩ := this
  obtain ⟨hs, he⟩ := hP (le_refl C)
  exact ⟨t, ht, hs, fun i j hj => by rw [he i j hj, if_pos hj]⟩

end Matrix

end Mlp

namespace Mlp

namespace Matrix

variable {α : Type} [LinearOrderedField α]

theorem eliminate_inner_ok {m acc : Matrix α} {R C : Nat} (hs : acc.HasShape R C)
    {r pivot_row : Nat} (hr : r < R) (hp : pivot_row < R) (hne : r ≠ pivot_row)
    (factor : α)
    (hrow : ∀ j, j < C → acc.entry r j = m.entry r j)
    (hpiv : ∀ j, j < C → acc.entry pivot_row j = m.entry pivot_row j) :
    ∃ t, forLoop C (fun c (m : Matrix α) =>
        (do
          let p ← m.get pivot_row c
          let v ← m.get r c
          m.set r c (v - factor * p) : Except MatError (Matrix α))) acc = .ok t ∧
      t.HasShape R C ∧
      ∀ i j, j < C → t.entry i j =
        if i = r then m.entry r j - factor * m.entry pivot_row j else acc.entry i j := by
  have := forLoop_inv
    (fun n (a : Matrix α) => n ≤ C → (a.HasShape R C ∧
      ∀ i j, j < C → a.entry i j =
        if i = r ∧ j < n then m.entry r j - factor * m.entry pivot_row j
        else acc.entry i j))
    C (fun c (m : Matrix α) =>
        (do
          let p ← m.get pivot_row c
          let v ← m.get r c
          m.set r c (v - factor * p) : Except MatError (Matrix α))) acc
    (fun _ => ⟨hs, fun i j _ => by simp⟩)
    (by
      intro c hc a ha
      obtain ⟨hsa, he⟩ := ha (by omega)
      have r1 : r < a.rows := by rw [hsa.1]; exact hr
      have r2 : pivot_row < a.rows := by rw [hsa.1]; exact hp
      have cc : c < a.cols := by rw [hsa.2.1]; exact hc
      refine ⟨a.store (r * C + c) (a.entry r c - factor * a.entry pivot_row c), ?_, ?_⟩
      · beta_reduce
        rw [get_ok r2 cc, except_bind_ok, get_ok r1 cc, except_bind_ok, set_ok r1 cc, hsa.2.1]
      · intro _
        refine ⟨hsa.store _ _, ?_⟩
        intro i j hj
        have hpe : a.entry pivot_row c = m.entry pivot_row c := by
          rw [he pivot_row c hc, if_neg (fun h => hne h.1.symm), hpiv c hc]
        have hre : a.entry r c = m.entry r c := by
          rw [he r c hc, if_neg (fun h => Nat.lt_irrefl c h.2), hrow c hc]
        rw [entry_store hsa hr hc hj, hpe, hre, he i j hj]
        by_cases hi : i = r
        · subst hi
          by_cases hjc : j = c
          · subst hjc
            simp only [Nat.lt_succ_self, and_self, if_true]
          · by_cases hlt : j < c
            · have hlt' : j < c + 1 := by omega
              simp only [hjc, hlt, hlt', and_false, and_true, if_false, if_true]
            · have hlt' : ¬ j < c + 1 := by omega
              simp only [hjc, hlt, hlt', and_false, if_false]
        · simp only [hi, false_and, if_false])
  obtain ⟨t, ht, hP⟩ := this
  obtain ⟨hst, he⟩ := hP (le_refl C)
  refine ⟨t, ht, hst, ?_⟩
  intro i j hj
  rw [he i j hj]
  by_cases hi : i = r
  · simp only [hi, hj, and_self, if_true]
  · simp only [hi, false_and, if_false]

theorem eliminate_rows_ok {m : Matrix α} {R C : Nat} (hm : m.HasShape R C)
    {pivot_row lead : Nat} (hp : pivot_row < R) (hl : lead < C) :
    ∃ t, eliminate_rows m pivot_row lead = .ok t ∧ t.HasShape R C ∧
      ∀ i j, i < R → j < C → t.entry i j =
        if i = pivot_row then m.entry pivot_row j
        else m.entry i j - m.entry i lead * m.entry pivot_row j := by
  unfold eliminate_rows
  rw [hm.1, hm.2.1]
  have := forLoop_inv
    (fun n (acc : Matrix α) => n ≤ R → (acc.HasShape R C ∧
      ∀ i j, j < C → acc.entry i j =
        if i < n ∧ i ≠ pivot_row then m.entry i j - m.entry i lead * m.entry pivot_row j
        else m.entry i j))
    R (fun r (m : Matrix α) =>
      if r ≠ pivot_row then
        (do
          let factor ← m.get r lead
          forLoop C (fun c (m : Matrix α) =>
            (do
              let p ← m.get pivot_row c
              let v ← m.get r c
              m.set r c (v - factor * p) : Except MatError (Matrix α))) m :
          Except MatError (Matrix α))
      else pure m) m
    (fun _ => ⟨hm, fun i j _ => by simp⟩)
    (by
      intro r hr acc hacc
      obtain ⟨hs, he⟩ := hacc (by omega)
      by_cases hne : r ≠ pivot_row
      · have hrow : ∀ j, j < C → acc.entry r j = m.entry r j := by
          intro j hj
          rw [he r j hj, if_neg (fun h => Nat.lt_irrefl r h.1)]
        have hpiv : ∀ j, j < C → acc.entry pivot_row j = m.entry pivot_row j := by
          intro j hj
          rw [he pivot_row j hj, if_neg (fun h => h.2 rfl)]
        obtain ⟨t, ht, hst, hte⟩ :=
          eliminate_inner_ok hs hr hp hne (m.entry r lead) hrow hpiv
        refine ⟨t, ?_, ?_⟩
        · beta_reduce
          rw [if_pos hne, get_ok (by rw [hs.1]; exact hr) (by rw [hs.2.1]; exact hl),
            except_bind_ok, hrow lead hl]
          exact ht
        · intro _
          refine ⟨hst, ?_⟩
          intro i j hj
          rw [hte i j hj]
          by_cases hi : i = r
          · subst hi
            simp only [Nat.lt_succ_self, hne, ne_eq, not_false_eq_true, and_self, if_true]
          · rw [if_neg hi, he i j hj]
            by_cases hc : i < r ∧ i ≠ pivot_row
            · have hc' : i < r + 1 ∧ i ≠ pivot_row := ⟨by omega, hc.2⟩
              rw [if_pos hc, if_pos hc']
            · have hc' : ¬ (i < r + 1 ∧ i ≠ pivot_row) := fun h => hc ⟨by omega, h.2⟩
              rw [if_neg hc, if_neg hc']
      · have heq : r = pivot_row := not_not.mp hne
        refine ⟨acc, ?_, ?_⟩
        · beta_reduce
          rw [if_neg hne]
          rfl
        · intro _
          refine ⟨hs, ?_⟩
          intro i j hj
          rw [he i j hj]
          by_cases hc : i < r ∧ i ≠ pivot_row
          · have hc' : i < r + 1 ∧ i ≠ pivot_row := ⟨by omega, hc.2⟩
            rw [if_pos hc, if_pos hc']
          · have hc' : ¬ (i < r + 1 ∧ i ≠ pivot_row) := by
              intro h
              exact hc ⟨by have := h.2; omega, h.2⟩
            rw [if_neg hc, if_neg hc'])
  obtain ⟨t, ht, hP⟩ := this
  obtain ⟨hst, he⟩ := hP (le_refl R)
  refine ⟨t, ht, hst, ?_⟩
  intro i j hi hj
  rw [he i j hj]
  by_cases hip : i = pivot_row
  · rw [if_pos hip, if_neg (fun h => h.2 hip), hip]
  · rw [if_neg hip, if_pos ⟨hi, hip⟩]

theorem round_small_values_ok {m : Matrix α} {R C : Nat} (hm : m.HasShape R C) :
    ∃ t, round_small_values m = .ok t ∧ t.HasShape R C ∧
      ∀ i j, i < R → j < C → t.entry i j =
        if |m.entry i j| < VERY_SMALL_NUMBER then 0 else m.entry i j := by
  unfold round_small_values
  rw [hm.1, hm.2.1]
  apply fill_loop m hm (fun i j => if |m.entry i j| < VERY_SMALL_NUMBER then 0 else m.entry i j)
    (fun r c (m : Matrix α) =>
      (do
        let v ← m.get r c
        if |v| < VERY_SMALL_NUMBER then m.set r c 0 else pure m : Except MatError (Matrix α)))
  intro i j acc hi hj hacc hcur
  have hia : i < acc.rows := by rw [hacc.1]; exact hi
  have hja : j < acc.cols := by rw [hacc.2.1]; exact hj
  rw [get_ok hia hja, except_bind_ok, hcur]
  by_cases h : |m.entry i j| < VERY_SMALL_NUMBER
  · rw [if_pos h, if_pos h, set_ok hia hja, hacc.2.1]
  · rw [if_neg h, if_neg h]
    have : acc.store (i * C + j) (m.entry i j) = acc := by
      rw [← hcur]
      unfold entry
      rw [hacc.2.1]
      exact store_load_self _ _
    rw [this]
    rfl

end Matrix

end Mlp

namespace Mlp

namespace Matrix

variable {α : Type} [LinearOrderedField α]

/-! ## The main loop of `rref` -/

theorem rref_loop_done {R C : Nat} (m : Matrix α) {r : Nat} (lead : Nat) (hr : ¬ r < R) :
    rref_loop R C m r lead = round_small_values m := by
  rw [rref_loop, if_neg hr]

theorem rref_loop_exhausted {R C : Nat} (m : Matrix α) {r lead : Nat} (hr : r < R)
    (hl : lead ≥ C) : rref_loop R C m r lead = .ok m := by
  rw [rref_loop, if_pos hr, dif_pos hl]

theorem rref_loop_skip {R C : Nat} (m : Matrix α) {r lead : Nat} (hr : r < R)
    (hl : ¬ lead ≥ C) (hfind : find_pivot_row m r lead = .ok none) :
    rref_loop R C m r lead =
      if lead + 1 = C then .ok m else rref_loop R C m r (lead + 1) := by
  rw [rref_loop, if_pos hr, dif_neg hl]
  simp only [hfind]

theorem rref_loop_pivot {R C : Nat} (m : Matrix α) {r lead : Nat} (hr : r < R)
    (hl : ¬ lead ≥ C) {pivot_row : Nat} {m1 m2 m3 : Matrix α} {pivot_val : α}
    (hfind : find_pivot_row m r lead = .ok (some pivot_row))
    (hswap : swap_rows m pivot_row r = .ok m1)
    (hval : m1.get r lead = .ok pivot_val)
    (hdiv : divide_row m1 r pivot_val = .ok m2)
    (helim : eliminate_rows m2 r lead = .ok m3) :
    rref_loop R C m r lead = rref_loop R C m3 (r + 1) (lead + 1) := by
  rw [rref_loop, if_pos hr, dif_neg hl]
  simp only [hfind, hswap, hval, hdiv, helim]

/-- One pivot step: the four helper calls succeed and the rows of the result
are given in terms of the rows of the matrix before the step. -/
theorem pivot_step_ok {m : Matrix α} {R C : Nat} (hm : m.HasShape R C) {r p lead : Nat}
    (hr : r < R) (hp : p < R) (hl : lead < C) :
    ∃ m1 m2 m3, swap_rows m p r = .ok m1 ∧ m1.get r lead = .ok (m.entry p lead) ∧
      divide_row m1 r (m.entry p lead) = .ok m2 ∧ eliminate_rows m2 r lead = .ok m3 ∧
      m3.HasShape R C ∧
      ∀ i j, i < R → j < C → m3.entry i j =
        if i = r then m.entry p j / m.entry p lead
        else (if i = p then m.entry r j else m.entry i j) -
          (if i = p then m.entry r lead else m.entry i lead) *
            (m.entry p j / m.entry p lead) := by
  obtain ⟨m1, h1, hs1, e1⟩ := swap_rows_ok hm hp hr
  obtain ⟨m2, h2, hs2, e2⟩ := divide_row_ok hs1 hr (m.entry p lead)
  obtain ⟨m3, h3, hs3, e3⟩ := eliminate_rows_ok hs2 hr hl
  have hval : m1.get r lead = .ok (m.entry p lead) := by
    rw [get_ok (by rw [hs1.1]; exact hr) (by rw [hs1.2.1]; exact hl), e1 r lead hl, if_pos rfl]
  refine ⟨m1, m2, m3, h1, hval, h2, h3, hs3, ?_⟩
  intro i j hi hj
  rw [e3 i j hi hj]
  have hrow : ∀ j, j < C → m2.entry r j = m.entry p j / m.entry p lead := by
    intro j hj
    rw [e2 r j hj, if_pos rfl, e1 r j hj, if_pos rfl]
  have hother : ∀ i j, i ≠ r → j < C →
      m2.entry i j = if i = p then m.entry r j else m.entry i j := by
    intro i j hi hj
    rw [e2 i j hj, if_neg hi, e1 i j hj, if_neg hi]
  by_cases hir : i = r
  · rw [if_pos hir, if_pos hir, hrow j hj]
  · rw [if_neg hir, if_neg hir, hrow j hj, hother i j hir hj, hother i lead hir hl]

/-- A pivot step re-establishes the loop invariant one row and one column further. -/
theorem RrefInv.pivot {R C : Nat} {m m3 : Matrix α} {r lead p : Nat}
    (hinv : RrefInv R C m r lead) (hr : r < R) (hl : lead < C) (hrp : r ≤ p) (hp : p < R)
    (hne : m.entry p lead ≠ 0) (hs3 : m3.HasShape R C)
    (he : ∀ i j, i < R → j < C → m3.entry i j =
        if i = r then m.entry p j / m.entry p lead
        else (if i = p then m.entry r j else m.entry i j) -
          (if i = p then m.entry r lead else m.entry i lead) *
            (m.entry p j / m.entry p lead)) :
    RrefInv R C m3 (r + 1) (lead + 1) := by
  obtain ⟨_, _, _, c, hc1, hc2, hc3, hc4⟩ := hinv
  -- the normalised pivot row
  have row_lead : m.entry p lead / m.entry p lead = 1 := div_self hne
  have row_zero : ∀ j, j < lead → m.entry p j / m.entry p lead = 0 := by
    intro j hj
    rw [hc4 p hrp hp j hj, zero_div]
  -- the other rows after the swap
  have low_zero : ∀ i, r ≤ i → i < R → ∀ j, j < lead →
      (if i = p then m.entry r j else m.entry i j) = 0 := by
    intro i hi hiR j hj
    by_cases hip : i = p
    · rw [if_pos hip]; exact hc4 r (le_refl r) hr j hj
    · rw [if_neg hip]; exact hc4 i hi hiR j hj
  refine ⟨hs3, hr, hl, fun i => if i = r then lead else c i, ?_, ?_, ?_, ?_⟩
  · intro i hi
    by_cases hir : i = r
    · simp only [hir, if_true]; omega
    · simp only [hir, if_false]
      have := hc1 i (by omega)
      omega
  · intro i j hij hj
    have hir : i ≠ r := by omega
    simp only [hir, if_false]
    by_cases hjr : j = r
    · simp only [hjr, if_true]
      exact hc1 i (by omega)
    · simp only [hjr, if_false]
      exact hc2 i j hij (by omega)
  · intro i hi
    by_cases hir : i = r
    · subst hir
      simp only [if_true]
      refine ⟨?_, ?_, ?_⟩
      · rw [he i lead hr hl, if_pos rfl, row_lead]
      · intro j hj
        rw [he i j hr (by omega), if_pos rfl, row_zero j hj]
      · intro i' hi' hne'
        rw [he i' lead hi' hl, if_neg hne', row_lead, mul_one, sub_self]
    · simp only [hir, if_false]
      have hilt : i < r := by omega
      have hiR : i < R := by omega
      have hcl : c i < lead := hc1 i hilt
      have hcC : c i < C := by omega
      have hip : i ≠ p := by omega
      obtain ⟨g1, g2, g3⟩ := hc3 i hilt
      refine ⟨?_, ?_, ?_⟩
      · rw [he i (c i) hiR hcC, if_neg hir, if_neg hip, if_neg hip, row_zero _ hcl, mul_zero,
          sub_zero, g1]
      · intro j hj
        rw [he i j hiR (by omega), if_neg hir, if_neg hip, if_neg hip, row_zero j (by omega),
          mul_zero, sub_zero, g2 j hj]
      · intro i' hi' hne'
        rw [he i' (c i) hi' hcC]
        by_cases hir' : i' = r
        · rw [if_pos hir', row_zero _ hcl]
        · rw [if_neg hir', row_zero _ hcl, mul_zero, sub_zero]
          by_cases hip' : i' = p
          · rw [if_pos hip']
            exact g3 r hr (fun h => hir h.symm)
          · rw [if_neg hip']
            exact g3 i' hi' hne'
  · intro i hi hiR j hj
    have hir : i ≠ r := by omega
    rw [he i j hiR (by omega), if_neg hir]
    by_cases hjl : j = lead
    · subst hjl
      rw [row_lead, mul_one, sub_self]
    · have hjlt : j < lead := by omega
      rw [row_zero j hjlt, mul_zero, sub_zero]
      exact low_zero i (by omega) hiR j hjlt

end Matrix

end Mlp

namespace Mlp

namespace Matrix

variable {α : Type} [LinearOrderedField α]

theorem very_small_lt_one : (VERY_SMALL_NUMBER : α) < 1 := by
  unfold VERY_SMALL_NUMBER
  rw [div_lt_one (by norm_num)]
  norm_num

theorem very_small_pos : (0 : α) < VERY_SMALL_NUMBER := by
  unfold VERY_SMALL_NUMBER
  positivity

/-- Rounding keeps ones and zeros. -/
theorem round_one : (if |(1 : α)| < VERY_SMALL_NUMBER then (0 : α) else 1) = 1 := by
  rw [if_neg]
  rw [abs_one]
  exact not_lt.mpr (le_of_lt very_small_lt_one)

theorem round_zero : (if |(0 : α)| < VERY_SMALL_NUMBER then (0 : α) else 0) = 0 := by
  split <;> rfl

/-- With no row left, the invariant gives a reduced row-echelon form, which the
final rounding pass keeps. -/
theorem RrefInv.finish {R C : Nat} {m t : Matrix α} {lead : Nat}
    (hinv : RrefInv R C m R lead) (hst : t.HasShape R C)
    (he : ∀ i j, i < R → j < C → t.entry i j =
        if |m.entry i j| < VERY_SMALL_NUMBER then 0 else m.entry i j) :
    t.IsRREF := by
  obtain ⟨_, _, hlead, c, hc1, hc2, hc3, _⟩ := hinv
  refine ⟨R, c, by rw [hst.1], ?_, ?_, ?_, ?_⟩
  · intro i hi
    rw [hst.2.1]
    have := hc1 i hi
    omega
  · exact hc2
  · intro i hi
    have hcC : c i < C := by have := hc1 i hi; omega
    obtain ⟨g1, g2, g3⟩ := hc3 i hi
    refine ⟨?_, ?_, ?_⟩
    · rw [he i (c i) hi hcC, g1]
      exact round_one
    · intro j hj
      rw [he i j hi (by omega), g2 j hj]
      exact round_zero
    · intro i' hi' hne
      rw [hst.1] at hi'
      rw [he i' (c i) hi' hcC, g3 i' hi' hne]
      exact round_zero
  · intro i hi hiR
    rw [hst.1] at hiR
    omega

/-- With the columns exhausted, the invariant gives a reduced row-echelon form. -/
theorem RrefInv.exhausted {R C : Nat} {m : Matrix α} {r : Nat}
    (hinv : RrefInv R C m r C) : m.IsRREF := by
  obtain ⟨hs, hr, _, c, hc1, hc2, hc3, hc4⟩ := hinv
  refine ⟨r, c, by rw [hs.1]; exact hr, ?_, ?_, ?_, ?_⟩
  · intro i hi
    rw [hs.2.1]
    exact hc1 i hi
  · exact hc2
  · intro i hi
    obtain ⟨g1, g2, g3⟩ := hc3 i hi
    exact ⟨g1, g2, fun i' hi' hne => g3 i' (by rw [← hs.1]; exact hi') hne⟩
  · intro i hi hiR j hj
    exact hc4 i hi (by rw [← hs.1]; exact hiR) j (by rw [← hs.2.1]; exact hj)

/-- A failed pivot search moves the column cursor and keeps the invariant. -/
theorem RrefInv.skip {R C : Nat} {m : Matrix α} {r lead : Nat}
    (hinv : RrefInv R C m r lead) (hl : lead < C)
    (hz : ∀ i, r ≤ i → i < R → m.entry i lead = 0) :
    RrefInv R C m r (lead + 1) := by
  obtain ⟨hs, hr, _, c, hc1, hc2, hc3, hc4⟩ := hinv
  refine ⟨hs, hr, hl, c, ?_, hc2, hc3, ?_⟩
  · intro i hi
    have := hc1 i hi
    omega
  · intro i hi hiR j hj
    by_cases hjl : j = lead
    · rw [hjl]; exact hz i hi hiR
    · exact hc4 i hi hiR j (by omega)

/-- From any state satisfying the invariant, the main loop of `rref` returns a
matrix of the same shape in reduced row-echelon form. -/
theorem rref_loop_ok {R C : Nat} (d : Nat) :
    ∀ (m : Matrix α) (r lead : Nat), C - lead = d → RrefInv R C m r lead →
      ∃ t, rref_loop R C m r lead = .ok t ∧ t.HasShape R C ∧ t.IsRREF := by
  induction d with
  | zero =>
    intro m r lead hd hinv
    have hlC : lead = C := by have := hinv.2.2.1; omega
    subst hlC
    by_cases hr : r < R
    · exact ⟨m, rref_loop_exhausted m hr (le_refl _), hinv.1, hinv.exhausted⟩
    · have hrR : r = R := by have := hinv.2.1; omega
      subst hrR
      obtain ⟨t, ht, hst, he⟩ := round_small_values_ok hinv.1
      exact ⟨t, (rref_loop_done m lead hr).trans ht, hst, hinv.finish hst he⟩
  | succ d ih =>
    intro m r lead hd hinv
    have hl : lead < C := by omega
    by_cases hr : r < R
    · rcases find_pivot_row_ok hinv.1 (le_of_lt hr) hl with ⟨hfind, hz⟩ | ⟨p, hfind, hrp, hp, hne, _⟩
      · rw [rref_loop_skip m hr (by omega) hfind]
        have hinv' := hinv.skip hl hz
        by_cases hlast : lead + 1 = C
        · rw [if_pos hlast]
          rw [hlast] at hinv'
          exact ⟨m, rfl, hinv.1, hinv'.exhausted⟩
        · rw [if_neg hlast]
          exact ih m r (lead + 1) (by omega) hinv'
      · obtain ⟨m1, m2, m3, h1, hval, h2, h3, hs3, he⟩ := pivot_step_ok hinv.1 hr hp hl
        rw [rref_loop_pivot m hr (by omega) hfind h1 hval h2 h3]
        exact ih m3 (r + 1) (lead + 1) (by omega) (hinv.pivot hr hl hrp hp hne hs3 he)
    · have hrR : r = R := by have := hinv.2.1; omega
      subst hrR
      obtain ⟨t, ht, hst, he⟩ := round_small_values_ok hinv.1
      exact ⟨t, (rref_loop_done m lead hr).trans ht, hst, hinv.finish hst he⟩

theorem RrefInv.init {R C : Nat} {m : Matrix α} (hm : m.HasShape R C) : RrefInv R C m 0 0 :=
  ⟨hm, Nat.zero_le _, Nat.zero_le _, fun _ => 0,
    fun i hi => absurd hi (Nat.not_lt_zero i),
    fun _ j _ hj => absurd hj (Nat.not_lt_zero j),
    fun i hi => absurd hi (Nat.not_lt_zero i),
    fun _ _ _ j hj => absurd hj (Nat.not_lt_zero j)⟩

theorem rref_ok {A : Matrix α} {R C : Nat} (hA : A.HasShape R C) :
    ∃ t, rref A = .ok t ∧ t.HasShape R C ∧ t.IsRREF := by
  unfold rref
  rw [copy_eq hA]
  show ∃ t, rref_loop A.rows A.cols A 0 0 = .ok t ∧ _
  rw [hA.1, hA.2.1]
  exact rref_loop_ok (C - 0) A 0 0 rfl (RrefInv.init hA)

/-- C2. For every well-formed matrix (exact arithmetic), `rref` returns a
matrix of the same dimensions in reduced row-echelon form: `k` pivot rows with
strictly increasing pivot columns, each pivot row starting with zeros up to a
`1` in its pivot column, pivot columns zero in every other row, and all rows
from `k` on zero. -/
theorem rref_spec (A : Matrix α) (hA : A.WellFormed) :
    ∃ T, rref A = .ok T ∧ T.rows = A.rows ∧ T.cols = A.cols ∧
      T.mat_data.length = A.rows * A.cols ∧ T.IsRREF := by
  obtain ⟨T, hT, hs, hrref⟩ := rref_ok hA.hasShape
  exact ⟨T, hT, hs.1, hs.2.1, hs.2.2, hrref⟩

end Matrix

end Mlp

namespace Mlp

open Matrix

/-! ## Concrete runs of `rref` (C3, C4) -/

/-- C3. `rref` applied to the `2 x 2` matrix `[[2,4],[1,3]]` returns the
`2 x 2` identity matrix `[[1,0],[0,1]]`. -/
theorem Matrix.rref_two_by_two :
    rref (⟨2, 2, [2, 4, 1, 3]⟩ : Matrix ℚ) = .ok ⟨2, 2, [1, 0, 0, 1]⟩ := by
  with_unfolding_all rfl

/-- C4, evaluated on `[[1, 1/2048], [0, 0]]`: the pivot search fails in the last
column for row `1`, `rref` returns through `lead == cols` without the rounding
pass, and the result keeps the non-zero entry `1/2048`, whose magnitude is below
`VERY_SMALL_NUMBER`. -/
theorem Matrix.rref_early_return_keeps_small_entry :
    rref (⟨2, 2, [1, 1 / 2048, 0, 0]⟩ : Matrix ℚ) = .ok ⟨2, 2, [1, 1 / 2048, 0, 0]⟩ ∧
    (⟨2, 2, [1, 1 / 2048, 0, 0]⟩ : Matrix ℚ).entry 0 1 = 1 / 2048 ∧
    (1 / 2048 : ℚ) ≠ 0 ∧ |(1 / 2048 : ℚ)| < VERY_SMALL_NUMBER ∧
    round_small_values (⟨2, 2, [1, 1 / 2048, 0, 0]⟩ : Matrix ℚ) = .ok ⟨2, 2, [1, 0, 0, 0]⟩ := by
  refine ⟨by with_unfolding_all rfl, by with_unfolding_all rfl, by norm_num, ?_,
    by with_unfolding_all rfl⟩
  unfold VERY_SMALL_NUMBER
  rw [abs_of_pos (by norm_num)]
  norm_num

/-! ## Instances at concrete inputs -/

theorem Matrix.operator_mul_spec_witness :
    (⟨2, 2, [1, 2, 3, 4]⟩ : Matrix ℚ).WellFormed ∧ (⟨2, 1, [5, 6]⟩ : Matrix ℚ).WellFormed ∧
    ∃ P, operator_mul (⟨2, 2, [1, 2, 3, 4]⟩ : Matrix ℚ) ⟨2, 1, [5, 6]⟩ = .ok P ∧
      P.rows = 2 ∧ P.cols = 1 ∧ P.get_const 1 0 = .ok 39 := by
  have h1 : (⟨2, 2, [1, 2, 3, 4]⟩ : Matrix ℚ).WellFormed := ⟨by decide, by decide, rfl⟩
  have h2 : (⟨2, 1, [5, 6]⟩ : Matrix ℚ).WellFormed := ⟨by decide, by decide, rfl⟩
  obtain ⟨P, hP, hr, hc, _, he⟩ :=
    (operator_mul_spec (⟨2, 2, [1, 2, 3, 4]⟩ : Matrix ℚ) ⟨2, 1, [5, 6]⟩ h1 h2).2 rfl
  refine ⟨h1, h2, P, hP, hr, hc, ?_⟩
  have := he 1 0 (by decide) (by decide)
  rw [show ((1 : Nat) : Int) = 1 from rfl, show ((0 : Nat) : Int) = 0 from rfl] at this
  rw [this]
  congr 1
  simp [Finset.sum_range_succ, entry, load]
  norm_num

theorem Matrix.rref_spec_witness :
    (⟨2, 3, [0, 2, 4, 0, 1, 2]⟩ : Matrix ℚ).WellFormed ∧
    ∃ T, rref (⟨2, 3, [0, 2, 4, 0, 1, 2]⟩ : Matrix ℚ) = .ok T ∧ T.rows = 2 ∧ T.cols = 3 ∧
      T.IsRREF := by
  have h : (⟨2, 3, [0, 2, 4, 0, 1, 2]⟩ : Matrix ℚ).WellFormed := ⟨by decide, by decide, rfl⟩
  obtain ⟨T, hT, hr, hc, _, hrref⟩ := rref_spec (⟨2, 3, [0, 2, 4, 0, 1, 2]⟩ : Matrix ℚ) h
  exact ⟨h, T, hT, hr, hc, hrref⟩

theorem softmax_spec_witness :
    (⟨1, 2, [0, 0]⟩ : Matrix ℝ).WellFormed ∧
    ∃ S, softmax Real.exp (⟨1, 2, [0, 0]⟩ : Matrix ℝ) = .ok S ∧ S.rows = 1 ∧ S.cols = 2 ∧
      S.sum = 1 := by
  have h : (⟨1, 2, [0, 0]⟩ : Matrix ℝ).WellFormed := ⟨by decide, by decide, rfl⟩
  obtain ⟨S, hS, hr, hc, _, _, hsum⟩ := softmax_spec (⟨1, 2, [0, 0]⟩ : Matrix ℝ) h
  exact ⟨h, S, hS, hr, hc, hsum⟩

theorem Dense.layer_call_spec_witness :
    (⟨1, 2, [1, 2]⟩ : Matrix ℚ).WellFormed ∧ (⟨1, 1, [7]⟩ : Matrix ℚ).WellFormed ∧
    (⟨2, 1, [3, 4]⟩ : Matrix ℚ).WellFormed ∧
    ∃ P S, operator_mul (⟨1, 2, [1, 2]⟩ : Matrix ℚ) ⟨2, 1, [3, 4]⟩ = .ok P ∧
      operator_add P ⟨1, 1, [7]⟩ = .ok S ∧
      (Dense.ctor (⟨1, 2, [1, 2]⟩ : Matrix ℚ) ⟨1, 1, [7]⟩
        (fun m => .ok (vectorize m))).operator_call ⟨2, 1, [3, 4]⟩ = .ok (vectorize S) := by
  have h1 : (⟨1, 2, [1, 2]⟩ : Matrix ℚ).WellFormed := ⟨by decide, by decide, rfl⟩
  have h2 : (⟨1, 1, [7]⟩ : Matrix ℚ).WellFormed := ⟨by decide, by decide, rfl⟩
  have h3 : (⟨2, 1, [3, 4]⟩ : Matrix ℚ).WellFormed := ⟨by decide, by decide, rfl⟩
  exact ⟨h1, h2, h3,
    (Dense.layer_call_spec (⟨1, 2, [1, 2]⟩ : Matrix ℚ) ⟨1, 1, [7]⟩ ⟨2, 1, [3, 4]⟩
      vectorize h1 h2 h3).2.1 (by decide)⟩

theorem MlpNetwork.network_call_spec_witness :
    ∃ (d : digit ℝ) (vec : Matrix ℝ),
      (MlpNetwork.ctor Real.exp
        (fun i => zeros (weights_dims i).rows (weights_dims i).cols)
        (fun i => zeros (bias_dims i).rows (bias_dims i).cols)).operator_call
          (zeros img_dims.rows img_dims.cols) = .ok (d, vec) ∧
      d.value ≤ 9 ∧ 0 ≤ d.probability ∧ d.probability ≤ 1 := by
  obtain ⟨_, _, _, _, d, vec, _, _, _, _, _, hcall, hv, _, _, h0, h1⟩ :=
    MlpNetwork.network_call_spec
      (fun i => zeros (weights_dims i).rows (weights_dims i).cols)
      (fun i => zeros (bias_dims i).rows (bias_dims i).cols)
      (zeros img_dims.rows img_dims.cols)
      (fun _ => hasShape_replicate _ _) (fun _ => hasShape_replicate _ _)
      (hasShape_replicate _ _)
  exact ⟨d, vec, hcall, hv, h0, h1⟩

theorem MlpNetwork.network_call_zero_image_witness :
    ∃ vec : Matrix ℝ,
      (MlpNetwork.ctor Real.exp
        (fun i => ⟨(weights_dims i).rows, (weights_dims i).cols,
          List.replicate ((weights_dims i).rows * (weights_dims i).cols) 1⟩)
        (fun i => zeros (bias_dims i).rows (bias_dims i).cols)).operator_call
          (zeros img_dims.rows img_dims.cols) = .ok (⟨0, 1 / 10⟩, vec) :=
  MlpNetwork.network_call_zero_image
    (fun i => ⟨(weights_dims i).rows, (weights_dims i).cols,
      List.replicate ((weights_dims i).rows * (weights_dims i).cols) 1⟩)
    (fun i => zeros (bias_dims i).rows (bias_dims i).cols)
    (zeros img_dims.rows img_dims.cols)
    (fun _ => ⟨rfl, rfl, List.length_replicate _ _⟩)
    (fun _ => hasShape_replicate _ _)
    (fun _ _ hx => (List.mem_replicate.mp hx).2)
    (hasShape_replicate _ _)
    (fun _ hx => (List.mem_replicate.mp hx).2)

end Mlp

namespace Mlp

namespace Matrix

variable {α : Type} [LinearOrderedField α]

/-! ## The checked accessors (C11, C12) -/

/-- C11. The 2-D accessor throws the out-of-range error exactly when `i < 0`,
`i >= rows`, `j < 0` or `j >= cols` (so for `(-1, 0)`); otherwise it selects
the element at position `i * cols + j` of the store; the mutable and the
read-only variant fail together and select the same element. -/
theorem accessor_call_spec (A : Matrix α) (i j : Int) :
    (A.operator_call i j = .error .out_of_range ↔
      (i < 0 ∨ i ≥ A.rows ∨ j < 0 ∨ j ≥ A.cols)) ∧
    (¬ (i < 0 ∨ i ≥ A.rows ∨ j < 0 ∨ j ≥ A.cols) →
      ∃ p : Nat, (p : Int) = i * A.cols + j ∧ A.operator_call i j = .ok p ∧
        A.get i j = .ok (A.load p) ∧ A.get_const i j = .ok (A.load p)) ∧
    A.operator_call_const i j = A.operator_call i j ∧
    A.get_const i j = A.get i j ∧
    A.operator_call (-1) 0 = .error .out_of_range ∧
    A.operator_call_const (-1) 0 = .error .out_of_range := by
  have hconst : A.operator_call_const i j = A.operator_call i j := rfl
  have hget : A.get_const i j = A.get i j := rfl
  refine ⟨?_, ?_, hconst, hget, ?_, ?_⟩
  · unfold operator_call
    by_cases h : i ≥ A.rows ∨ i < 0 ∨ j ≥ A.cols ∨ j < 0
    · rw [if_pos h]
      exact ⟨fun _ => (by omega), fun _ => rfl⟩
    · rw [if_neg h]
      exact ⟨fun e => (by cases e), fun _ => absurd (by omega) h⟩
  · intro h
    have hneg : ¬ (i ≥ A.rows ∨ i < 0 ∨ j ≥ A.cols ∨ j < 0) := by omega
    have hnn : 0 ≤ i * A.cols + j := by
      have h1 : 0 ≤ i := by omega
      have h2 : 0 ≤ j := by omega
      positivity
    have hcall : A.operator_call i j = .ok (i * A.cols + j).toNat := by
      unfold operator_call
      rw [if_neg hneg]
    refine ⟨(i * A.cols + j).toNat, Int.toNat_of_nonneg hnn, hcall, ?_, ?_⟩
    · unfold get
      rw [hcall]
    · rw [hget]
      unfold get
      rw [hcall]
  · unfold operator_call
    rw [if_pos (by omega)]
  · unfold operator_call_const
    rw [if_pos (by omega)]

/-- C12. The linear accessor throws the out-of-range error exactly when `k < 0`
or `k >= rows * cols` (so for `k = rows * cols`); otherwise it selects the
`k`-th element of the store, and `A[i * cols + j]` is `A(i, j)` for every
in-bounds `(i, j)`; the mutable and the read-only variant agree. -/
theorem accessor_index_spec (A : Matrix α) (k : Int) :
    (A.operator_index k = .error .out_of_range ↔ (k < 0 ∨ k ≥ A.rows * A.cols)) ∧
    (¬ (k < 0 ∨ k ≥ A.rows * A.cols) →
      ∃ p : Nat, (p : Int) = k ∧ A.operator_index k = .ok p ∧
        A.get_index k = .ok (A.load p) ∧ A.get_index_const k = .ok (A.load p)) ∧
    A.operator_index_const k = A.operator_index k ∧
    A.get_index_const k = A.get_index k ∧
    A.operator_index (A.rows * A.cols) = .error .out_of_range ∧
    (∀ i j : Int, 0 ≤ i → i < A.rows → 0 ≤ j → j < A.cols →
      A.operator_index (i * A.cols + j) = A.operator_call i j ∧
      A.get_index (i * A.cols + j) = A.get i j ∧
      A.get_index_const (i * A.cols + j) = A.get_const i j) := by
  have hconst : A.operator_index_const k = A.operator_index k := rfl
  have hget : A.get_index_const k = A.get_index k := rfl
  refine ⟨?_, ?_, hconst, hget, ?_, ?_⟩
  · unfold operator_index
    by_cases h : k ≥ A.rows * A.cols ∨ k < 0
    · rw [if_pos h]
      exact ⟨fun _ => (by omega), fun _ => rfl⟩
    · rw [if_neg h]
      exact ⟨fun e => (by cases e), fun _ => absurd (by omega) h⟩
  · intro h
    have hneg : ¬ (k ≥ A.rows * A.cols ∨ k < 0) := by omega
    have hcall : A.operator_index k = .ok k.toNat := by
      unfold operator_index
      rw [if_neg hneg]
    refine ⟨k.toNat, Int.toNat_of_nonneg (by omega), hcall, ?_, ?_⟩
    · unfold get_index
      rw [hcall]
    · rw [hget]
      unfold get_index
      rw [hcall]
  · unfold operator_index
    rw [if_pos (Or.inl (le_refl _))]
  · intro i j hi0 hi hj0 hj
    obtain ⟨a, rfl⟩ := Int.eq_ofNat_of_zero_le hi0
    obtain ⟨b, rfl⟩ := Int.eq_ofNat_of_zero_le hj0
    have ha : a < A.rows := by omega
    have hb : b < A.cols := by omega
    have hk : a * A.cols + b < A.rows * A.cols := rowmajor_lt ha hb
    have hcast : ((a : Int) * (A.cols : Int) + (b : Int)) = ((a * A.cols + b : Nat) : Int) := by
      push_cast; ring
    have e1 : A.operator_index ((a : Int) * (A.cols : Int) + (b : Int)) =
        A.operator_call a b := by
      rw [hcast, operator_index_ok hk, operator_call_ok ha hb]
    refine ⟨e1, ?_, ?_⟩
    · unfold get_index get
      rw [e1]
    · show A.get_index _ = A.get _ _
      unfold get_index get
      rw [e1]

/-! ## Reshaping into a column (C15) -/

/-- C15. `vectorize` turns an `r x c` matrix into an `(r * c) x 1` matrix over
the same store: its element at linear index `k < r * c`, which is also its
element at `(k, 0)`, is `A[k]`. -/
theorem vectorize_spec (A : Matrix α) :
    A.vectorize.rows = A.rows * A.cols ∧ A.vectorize.cols = 1 ∧
    A.vectorize.mat_data = A.mat_data ∧
    ∀ k : Nat, k < A.rows * A.cols →
      A.get_index k = .ok (A.load k) ∧
      A.vectorize.get_index k = .ok (A.load k) ∧
      A.vectorize.get k 0 = .ok (A.load k) := by
  refine ⟨rfl, rfl, rfl, ?_⟩
  intro k hk
  have hk' : k < A.vectorize.rows * A.vectorize.cols := by
    show k < A.rows * A.cols * 1
    omega
  refine ⟨get_index_ok hk, get_index_ok hk', ?_⟩
  have h := @get_ok α _ A.vectorize k 0 hk Nat.zero_lt_one
  rw [show ((0 : Nat) : Int) = 0 from rfl] at h
  rw [h]
  show Except.ok (A.load (k * 1 + 0)) = _
  simp

end Matrix

open Matrix

variable {α : Type} [LinearOrderedField α]

/-! ## The rectified-linear activation (C16) -/

/-- C16. On a well-formed matrix `relu` does not throw; the result has the same
dimensions and its element at `(i, j)` is `A(i, j)` when `A(i, j) >= 0` and `0`
otherwise. -/
theorem relu_spec (A : Matrix α) (hA : A.WellFormed) :
    ∃ B, relu A = .ok B ∧ B.rows = A.rows ∧ B.cols = A.cols ∧
      B.mat_data.length = A.rows * A.cols ∧
      ∀ i j : Nat, i < A.rows → j < A.cols →
        ∃ a, A.get_const i j = .ok a ∧ B.get_const i j = .ok (if a ≥ 0 then a else 0) := by
  obtain ⟨B, hB, hs, he⟩ := relu_ok hA.hasShape hA.1 hA.2.1
  refine ⟨B, hB, hs.1, hs.2.1, hs.2.2, ?_⟩
  intro i j hi hj
  refine ⟨A.entry i j, get_const_ok hi hj, ?_⟩
  rw [get_const_ok (by rw [hs.1]; exact hi) (by rw [hs.2.1]; exact hj), he i j hi hj]

end Mlp

namespace Mlp

namespace Matrix

variable {α : Type} [LinearOrderedField α]

/-! ## Elementwise addition (C13, C17) -/

theorem operator_add_assign_ok {a b : Matrix α} {R C : Nat} (ha : a.HasShape R C)
    (hb : b.HasShape R C) :
    ∃ s, operator_add_assign a b = .ok s ∧ s.HasShape R C ∧
      ∀ k, k < R * C → s.load k = a.load k + b.load k := by
  unfold operator_add_assign
  rw [if_neg (by rw [ha.1, ha.2.1, hb.1, hb.2.1]; simp), ha.1, ha.2.1]
  have := forPure_inv
    (fun n (acc : Matrix α) => n ≤ R * C → (acc.HasShape R C ∧
      ∀ k, acc.load k = if k < n then a.load k + b.load k else a.load k))
    (R * C) (fun i (acc : Matrix α) => acc.store i (acc.load i + b.load i)) a
    (fun _ => ⟨ha, fun k => by simp⟩)
    (by
      intro k _ acc hacc hk
      obtain ⟨hs, hl⟩ := hacc (by omega)
      refine ⟨hs.store _ _, ?_⟩
      intro j
      rw [load_store _ _ _ _ (by rw [hs.2.2]; omega)]
      by_cases e : j = k
      · subst e
        rw [if_pos rfl, if_pos (Nat.lt_succ_self j), hl j, if_neg (Nat.lt_irrefl j)]
      · rw [if_neg e, hl j]
        by_cases hjk : j < k
        · rw [if_pos hjk, if_pos (by omega)]
        · rw [if_neg hjk, if_neg (by omega)])
  obtain ⟨hs, hl⟩ := this (le_refl _)
  exact ⟨_, rfl, hs, fun k hk => by rw [hl k, if_pos hk]⟩

theorem operator_add_assign_error {a b : Matrix α} (h : a.rows ≠ b.rows ∨ a.cols ≠ b.cols) :
    operator_add_assign a b = .error .length_error := by
  unfold operator_add_assign
  rw [if_pos h]

/-- C13. `A + B` and `A += B` throw the size error exactly when the operands
differ in `rows` or in `cols`; otherwise both yield the same matrix, of the
shape of `A`, whose element `k` is `A[k] + B[k]`.  The error of `+=` is raised
by the shape test, before any element is written. -/
theorem operator_add_spec (A B : Matrix α) (hA : A.WellFormed) (hB : B.WellFormed) :
    (operator_add A B = .error .length_error ↔ (A.rows ≠ B.rows ∨ A.cols ≠ B.cols)) ∧
    (operator_add_assign A B = .error .length_error ↔
      (A.rows ≠ B.rows ∨ A.cols ≠ B.cols)) ∧
    (¬ (A.rows ≠ B.rows ∨ A.cols ≠ B.cols) →
      ∃ S, operator_add A B = .ok S ∧ operator_add_assign A B = .ok S ∧
        S.rows = A.rows ∧ S.cols = A.cols ∧ S.mat_data.length = A.rows * A.cols ∧
        ∀ k : Nat, k < A.rows * A.cols →
          S.get_index_const k = .ok (A.load k + B.load k)) := by
  have hgood : ¬ (A.rows ≠ B.rows ∨ A.cols ≠ B.cols) →
      ∃ S, operator_add A B = .ok S ∧ operator_add_assign A B = .ok S ∧
        S.HasShape A.rows A.cols ∧
        ∀ k : Nat, k < A.rows * A.cols → S.load k = A.load k + B.load k := by
    intro h
    have h1 : B.rows = A.rows := by
      by_contra e; exact h (Or.inl (fun e' => e e'.symm))
    have h2 : B.cols = A.cols := by
      by_contra e; exact h (Or.inr (fun e' => e e'.symm))
    have hBs : B.HasShape A.rows A.cols := ⟨h1, h2, by rw [hB.2.2, h1, h2]⟩
    obtain ⟨S, hS, hSs, hSl⟩ := operator_add_ok hA.hasShape hBs hA.1 hA.2.1
    obtain ⟨S', hS', hSs', hSl'⟩ := operator_add_assign_ok hA.hasShape hBs
    have : S' = S := hSs'.ext_load hSs (fun k hk => by rw [hSl k hk, hSl' k hk])
    rw [this] at hS'
    exact ⟨S, hS, hS', hSs, hSl⟩
  refine ⟨⟨?_, operator_add_error⟩, ⟨?_, operator_add_assign_error⟩, ?_⟩
  · intro hfail
    by_contra h
    obtain ⟨S, hS, _⟩ := hgood h
    rw [hS] at hfail
    cases hfail
  · intro hfail
    by_contra h
    obtain ⟨S, _, hS, _⟩ := hgood h
    rw [hS] at hfail
    cases hfail
  · intro h
    obtain ⟨S, hS, hS', hSs, hSl⟩ := hgood h
    refine ⟨S, hS, hS', hSs.1, hSs.2.1, hSs.2.2, ?_⟩
    intro k hk
    rw [get_index_const_ok (by rw [hSs.1, hSs.2.1]; exact hk), hSl k hk]

/-- C17. For matrices of one common shape, `(A + B) + C` and `A + (B + C)` are
the same matrix, and so are `A + B` and `B + A`. -/
theorem operator_add_assoc_comm (A B C : Matrix α) (hA : A.WellFormed)
    (hB : B.HasShape A.rows A.cols) (hC : C.HasShape A.rows A.cols) :
    ∃ AB BC BA L R, operator_add A B = .ok AB ∧ operator_add AB C = .ok L ∧
      operator_add B C = .ok BC ∧ operator_add A BC = .ok R ∧
      operator_add B A = .ok BA ∧ L = R ∧ AB = BA ∧
      L.rows = A.rows ∧ L.cols = A.cols ∧ AB.rows = A.rows ∧ AB.cols = A.cols := by
  have hAs := hA.hasShape
  obtain ⟨AB, h1, s1, l1⟩ := operator_add_ok hAs hB hA.1 hA.2.1
  obtain ⟨L, h2, s2, l2⟩ := operator_add_ok s1 hC hA.1 hA.2.1
  obtain ⟨BC, h3, s3, l3⟩ := operator_add_ok hB hC hA.1 hA.2.1
  obtain ⟨R, h4, s4, l4⟩ := operator_add_ok hAs s3 hA.1 hA.2.1
  obtain ⟨BA, h5, s5, l5⟩ := operator_add_ok hB hAs hA.1 hA.2.1
  refine ⟨AB, BC, BA, L, R, h1, h2, h3, h4, h5, ?_, ?_, s2.1, s2.2.1, s1.1, s1.2.1⟩
  · apply s2.ext_load s4
    intro k hk
    rw [l2 k hk, l1 k hk, l4 k hk, l3 k hk, add_assoc]
  · apply s1.ext_load s5
    intro k hk
    rw [l1 k hk, l5 k hk, add_comm]

/-! ## Scalar multiples (C19) -/

/-- C19. The products `A * c` and `c * A` do not throw and are the same matrix:
it has the dimensions of `A` and its element `k` is `c` times `A[k]`.  Both are
computed on a copy, as functions of `A`. -/
theorem scalar_mul_spec (A : Matrix α) (c : α) (hA : A.WellFormed) :
    ∃ P, operator_mul_scalar A c = .ok P ∧ scalar_operator_mul c A = .ok P ∧
      P.rows = A.rows ∧ P.cols = A.cols ∧ P.mat_data.length = A.rows * A.cols ∧
      ∀ k : Nat, k < A.rows * A.cols → P.get_index_const k = .ok (c * A.load k) := by
  obtain ⟨P, hP, hs, hl⟩ := operator_mul_scalar_ok c hA.hasShape
  obtain ⟨P', hP', hs', hl'⟩ := scalar_operator_mul_ok c hA.hasShape
  have : P' = P := hs'.ext_load hs (fun k hk => by rw [hl k hk, hl' k hk])
  rw [this] at hP'
  refine ⟨P, hP, hP', hs.1, hs.2.1, hs.2.2, ?_⟩
  intro k hk
  rw [get_index_const_ok (by rw [hs.1, hs.2.1]; exact hk), hl k hk, mul_comm]

end Matrix

end Mlp

namespace Mlp

namespace Matrix

variable {α : Type} [LinearOrderedField α]

/-! ## Transposition (C14) -/

/-- Two matrices of one shape with the same element at every `(i, j)` are equal. -/
theorem HasShape.ext_entry {m m' : Matrix α} {R C : Nat} (hm : m.HasShape R C)
    (hm' : m'.HasShape R C)
    (h : ∀ i j, i < R → j < C → m.entry i j = m'.entry i j) : m = m' := by
  apply hm.ext_load hm'
  intro k hk
  have hC : 0 < C := by
    rcases Nat.eq_zero_or_pos C with h0 | h0
    · rw [h0, Nat.mul_zero] at hk; exact absurd hk (Nat.not_lt_zero k)
    · exact h0
  have hdiv : k / C < R := by
    rw [Nat.div_lt_iff_lt_mul hC]; exact hk
  have hmod : k % C < C := Nat.mod_lt k hC
  have hk' : k / C * C + k % C = k := Nat.div_add_mod' k C
  have := h (k / C) (k % C) hdiv hmod
  unfold entry at this
  rw [hm.2.1, hm'.2.1, hk'] at this
  exact this

theorem transpose_inner (old : Matrix α) {R C : Nat} (i : Nat) (hi : i < C)
    (acc : Matrix α) (hlen : acc.mat_data.length = R * C) (n : Nat) (hn : n ≤ R) :
    (forPure n (fun j (acc : Matrix α) =>
        acc.store (i * R + j) (old.load (j * C + i))) acc).mat_data.length = R * C ∧
    (forPure n (fun j (acc : Matrix α) =>
        acc.store (i * R + j) (old.load (j * C + i))) acc).rows = acc.rows ∧
    (forPure n (fun j (acc : Matrix α) =>
        acc.store (i * R + j) (old.load (j * C + i))) acc).cols = acc.cols ∧
    ∀ i' j', j' < R →
      (forPure n (fun j (acc : Matrix α) =>
        acc.store (i * R + j) (old.load (j * C + i))) acc).load (i' * R + j') =
        if i' = i ∧ j' < n then old.load (j' * C + i') else acc.load (i' * R + j') := by
  apply forPure_inv
    (fun n (a : Matrix α) => n ≤ R → (a.mat_data.length = R * C ∧ a.rows = acc.rows ∧
      a.cols = acc.cols ∧ ∀ i' j', j' < R →
        a.load (i' * R + j') =
          if i' = i ∧ j' < n then old.load (j' * C + i') else acc.load (i' * R + j')))
    n (fun j (acc : Matrix α) => acc.store (i * R + j) (old.load (j * C + i))) acc
  · intro _
    exact ⟨hlen, rfl, rfl, fun i' j' _ => by simp⟩
  · intro k _ a ha hk
    obtain ⟨hl, hr, hc, he⟩ := ha (by omega)
    refine ⟨by rw [store_length]; exact hl, hr, hc, ?_⟩
    intro i' j' hj'
    have hpos : i * R + k < a.mat_data.length := by
      rw [hl, Nat.mul_comm R C]
      exact rowmajor_lt hi (by omega)
    rw [load_store _ _ _ _ hpos, he i' j' hj']
    simp only [rowmajor_inj hj' (show k < R by omega)]
    by_cases e1 : i' = i
    · by_cases e2 : j' = k
      · subst e1 e2
        simp
      · by_cases e3 : j' < k
        · have e4 : j' < k + 1 := by omega
          simp only [e1, e2, e3, e4, and_false, and_true, if_false, if_true, true_and]
        · have e4 : ¬ j' < k + 1 := by omega
          simp only [e1, e2, e3, e4, and_false, if_false]
    · simp only [e1, false_and, if_false]
  · exact hn

theorem transpose_ok {m : Matrix α} {R C : Nat} (hm : m.HasShape R C) :
    m.transpose.HasShape C R ∧
      ∀ i j, i < C → j < R → m.transpose.entry i j = m.entry j i := by
  have key := forPure_inv
    (fun n (acc : Matrix α) => n ≤ C → (acc.mat_data.length = R * C ∧ acc.rows = R ∧
      acc.cols = C ∧ ∀ i j, i < n → j < R → acc.load (i * R + j) = m.load (j * C + i)))
    C (fun i (acc : Matrix α) => forPure R (fun j (acc : Matrix α) =>
        acc.store (i * R + j) (m.load (j * C + i))) acc) m
    (fun _ => ⟨hm.2.2, hm.1, hm.2.1, fun i j hi _ => absurd hi (Nat.not_lt_zero i)⟩)
    (by
      intro i hi acc hacc hi'
      obtain ⟨hl, hr, hc, he⟩ := hacc (by omega)
      obtain ⟨g1, g2, g3, g4⟩ := transpose_inner m i (show i < C by omega) acc hl R (le_refl R)
      refine ⟨g1, g2.trans hr, g3.trans hc, ?_⟩
      intro i' j' hi'' hj'
      rw [g4 i' j' hj']
      by_cases e : i' = i
      · rw [if_pos ⟨e, hj'⟩]
      · rw [if_neg (fun h => e h.1)]
        exact he i' j' (by omega) hj')
  obtain ⟨hl, _, _, he⟩ := key (le_refl C)
  have hT : m.transpose = { (forPure C (fun i (acc : Matrix α) =>
        forPure R (fun j (acc : Matrix α) =>
          acc.store (i * R + j) (m.load (j * C + i))) acc) m) with rows := C, cols := R } := by
    unfold transpose
    rw [copy_eq hm]
    simp only [hm.1, hm.2.1]
  rw [hT]
  refine ⟨⟨rfl, rfl, by rw [Nat.mul_comm C R]; exact hl⟩, ?_⟩
  intro i j hi hj
  show (forPure C _ m).load (i * R + j) = m.load (j * m.cols + i)
  rw [hm.2.1]
  exact he i j hi hj

/-- C14. Transposing a well-formed matrix twice gives back the matrix: the same
`rows`, the same `cols` and the same store. -/
theorem transpose_transpose_spec (A : Matrix α) (hA : A.WellFormed) :
    A.transpose.transpose = A ∧
    A.transpose.transpose.rows = A.rows ∧ A.transpose.transpose.cols = A.cols ∧
    ∀ i j : Nat, i < A.rows → j < A.cols →
      A.transpose.transpose.get_const i j = A.get_const i j := by
  obtain ⟨hs1, he1⟩ := transpose_ok hA.hasShape
  obtain ⟨hs2, he2⟩ := transpose_ok hs1
  have heq : A.transpose.transpose = A := by
    apply hs2.ext_entry hA.hasShape
    intro i j hi hj
    rw [he2 i j hi hj, he1 j i hj hi]
  refine ⟨heq, by rw [heq], by rw [heq], ?_⟩
  intro i j _ _
  rw [heq]

end Matrix

end Mlp

namespace Mlp

namespace Matrix

variable {α : Type} [LinearOrderedField α]

/-! ## Associativity of the matrix product (C18) -/

/-- C18. For `A`, `B`, `C` with `cols(A) = rows(B)` and `cols(B) = rows(C)`,
both `(A * B) * C` and `A * (B * C)` succeed and are the same matrix, of
dimensions `rows(A) x cols(C)`. -/
theorem operator_mul_assoc (A B C : Matrix α) (hA : A.WellFormed) (hB : B.WellFormed)
    (hC : C.WellFormed) (h1 : A.cols = B.rows) (h2 : B.cols = C.rows) :
    ∃ AB BC L R, operator_mul A B = .ok AB ∧ operator_mul AB C = .ok L ∧
      operator_mul B C = .ok BC ∧ operator_mul A BC = .ok R ∧ L = R ∧
      L.rows = A.rows ∧ L.cols = C.cols ∧
      ∀ i j : Nat, i < A.rows → j < C.cols → L.get_const i j = R.get_const i j := by
  obtain ⟨AB, hAB, sAB, eAB⟩ := operator_mul_ok A B hA hB h1
  obtain ⟨BC, hBC, sBC, eBC⟩ := operator_mul_ok B C hB hC h2
  have wAB : AB.WellFormed := sAB.wellFormed hA.1 hB.2.1
  have wBC : BC.WellFormed := sBC.wellFormed hB.1 hC.2.1
  obtain ⟨L, hL, sL, eL⟩ := operator_mul_ok AB C wAB hC (by rw [sAB.2.1]; exact h2)
  obtain ⟨R, hR, sR, eR⟩ := operator_mul_ok A BC hA wBC (by rw [sBC.1]; exact h1)
  rw [sAB.1] at sL
  rw [sBC.2.1] at sR
  have heq : L = R := by
    apply sL.ext_entry sR
    intro i j hi hj
    rw [eL i j (by rw [sAB.1]; exact hi) hj, eR i j hi (by rw [sBC.2.1]; exact hj), sAB.2.1]
    have e1 : ∑ l in Finset.range B.cols, AB.entry i l * C.entry l j =
        ∑ l in Finset.range B.cols, ∑ k in Finset.range A.cols,
          A.entry i k * B.entry k l * C.entry l j := by
      apply Finset.sum_congr rfl
      intro l hl
      rw [eAB i l hi (Finset.mem_range.mp hl), Finset.sum_mul]
    have e2 : ∑ k in Finset.range A.cols, A.entry i k * BC.entry k j =
        ∑ k in Finset.range A.cols, ∑ l in Finset.range B.cols,
          A.entry i k * B.entry k l * C.entry l j := by
      apply Finset.sum_congr rfl
      intro k hk
      rw [eBC k j (by rw [← h1]; exact Finset.mem_range.mp hk) hj, Finset.mul_sum]
      apply Finset.sum_congr rfl
      intro l _
      rw [mul_assoc]
    rw [e1, e2, Finset.sum_comm]
  refine ⟨AB, BC, L, R, hAB, hL, hBC, hR, heq, sL.1, sL.2.1, ?_⟩
  intro i j _ _
  rw [heq]

/-! ## `rref` of a zero matrix (C20) -/

theorem hasShape_zeros (R C : Nat) : (zeros R C : Matrix α).HasShape R C :=
  hasShape_replicate R C

theorem entry_zeros (R C i j : Nat) : (zeros R C : Matrix α).entry i j = 0 :=
  entry_replicate R C i j

theorem rref_loop_zeros {R C : Nat} (hR : 1 ≤ R) (d : Nat) :
    ∀ lead, C - lead = d → lead < C →
      rref_loop R C (zeros R C : Matrix α) 0 lead = .ok (zeros R C) := by
  induction d with
  | zero =>
    intro lead hd hl
    omega
  | succ d ih =>
    intro lead hd hl
    have hfind : find_pivot_row (zeros R C : Matrix α) 0 lead = .ok none := by
      rcases find_pivot_row_ok (@hasShape_zeros α _ R C) (Nat.zero_le R) hl with
        ⟨h, _⟩ | ⟨p, _, _, _, hne, _⟩
      · exact h
      · exact absurd (entry_zeros R C p lead) hne
    rw [rref_loop_skip _ (show 0 < R by omega) (by omega) hfind]
    by_cases hlast : lead + 1 = C
    · rw [if_pos hlast]
    · rw [if_neg hlast]
      exact ih (lead + 1) (by omega) (by omega)

/-- C20. For `rows >= 1` and `cols >= 1`, `rref` of the all-zero matrix of that
shape returns the all-zero matrix of the same shape; so does a single zero row. -/
theorem rref_zeros_spec (R C : Nat) (hR : 1 ≤ R) (hC : 1 ≤ C) :
    rref (zeros R C : Matrix α) = .ok (zeros R C) ∧
    rref (zeros 1 C : Matrix α) = .ok (zeros 1 C) := by
  have key : ∀ R' : Nat, 1 ≤ R' → rref (zeros R' C : Matrix α) = .ok (zeros R' C) := by
    intro R' hR'
    unfold rref
    rw [copy_eq (@hasShape_zeros α _ R' C)]
    show rref_loop R' C (zeros R' C : Matrix α) 0 0 = _
    exact rref_loop_zeros hR' (C - 0) 0 rfl (show 0 < C by omega)
  exact ⟨key R hR, key 1 (le_refl 1)⟩

end Matrix

end Mlp

namespace Mlp

open Matrix

/-! ## Further instances at concrete inputs -/

theorem Matrix.operator_add_spec_witness :
    (⟨1, 2, [1, 2]⟩ : Matrix ℚ).WellFormed ∧ (⟨1, 2, [10, 20]⟩ : Matrix ℚ).WellFormed ∧
    ∃ S, operator_add (⟨1, 2, [1, 2]⟩ : Matrix ℚ) ⟨1, 2, [10, 20]⟩ = .ok S ∧
      operator_add_assign (⟨1, 2, [1, 2]⟩ : Matrix ℚ) ⟨1, 2, [10, 20]⟩ = .ok S ∧
      S.rows = 1 ∧ S.cols = 2 := by
  have h1 : (⟨1, 2, [1, 2]⟩ : Matrix ℚ).WellFormed := ⟨by decide, by decide, rfl⟩
  have h2 : (⟨1, 2, [10, 20]⟩ : Matrix ℚ).WellFormed := ⟨by decide, by decide, rfl⟩
  obtain ⟨S, hS, hS', hr, hc, _⟩ :=
    (operator_add_spec (⟨1, 2, [1, 2]⟩ : Matrix ℚ) ⟨1, 2, [10, 20]⟩ h1 h2).2.2 (by decide)
  exact ⟨h1, h2, S, hS, hS', hr, hc⟩

theorem Matrix.transpose_transpose_spec_witness :
    (⟨2, 3, [1, 2, 3, 4, 5, 6]⟩ : Matrix ℚ).WellFormed ∧
    (⟨2, 3, [1, 2, 3, 4, 5, 6]⟩ : Matrix ℚ).transpose.transpose = ⟨2, 3, [1, 2, 3, 4, 5, 6]⟩ := by
  have h : (⟨2, 3, [1, 2, 3, 4, 5, 6]⟩ : Matrix ℚ).WellFormed := ⟨by decide, by decide, rfl⟩
  exact ⟨h, (transpose_transpose_spec (⟨2, 3, [1, 2, 3, 4, 5, 6]⟩ : Matrix ℚ) h).1⟩

theorem relu_spec_witness :
    (⟨1, 2, [-1, 2]⟩ : Matrix ℚ).WellFormed ∧
    ∃ B, relu (⟨1, 2, [-1, 2]⟩ : Matrix ℚ) = .ok B ∧ B.rows = 1 ∧ B.cols = 2 := by
  have h : (⟨1, 2, [-1, 2]⟩ : Matrix ℚ).WellFormed := ⟨by decide, by decide, rfl⟩
  obtain ⟨B, hB, hr, hc, _⟩ := relu_spec (⟨1, 2, [-1, 2]⟩ : Matrix ℚ) h
  exact ⟨h, B, hB, hr, hc⟩

theorem Matrix.operator_add_assoc_comm_witness :
    (⟨1, 2, [1, 2]⟩ : Matrix ℚ).WellFormed ∧
    ∃ AB BA : Matrix ℚ, operator_add (⟨1, 2, [1, 2]⟩ : Matrix ℚ) ⟨1, 2, [3, 4]⟩ = .ok AB ∧
      operator_add (⟨1, 2, [3, 4]⟩ : Matrix ℚ) ⟨1, 2, [1, 2]⟩ = .ok BA ∧ AB = BA := by
  have h : (⟨1, 2, [1, 2]⟩ : Matrix ℚ).WellFormed := ⟨by decide, by decide, rfl⟩
  obtain ⟨AB, _, BA, _, _, h1, _, _, _, h5, _, hcomm, _⟩ :=
    operator_add_assoc_comm (⟨1, 2, [1, 2]⟩ : Matrix ℚ) ⟨1, 2, [3, 4]⟩ ⟨1, 2, [5, 6]⟩ h
      ⟨rfl, rfl, rfl⟩ ⟨rfl, rfl, rfl⟩
  exact ⟨h, AB, BA, h1, h5, hcomm⟩

theorem Matrix.operator_mul_assoc_witness :
    (⟨1, 2, [1, 2]⟩ : Matrix ℚ).WellFormed ∧ (⟨2, 1, [3, 4]⟩ : Matrix ℚ).WellFormed ∧
    (⟨1, 2, [5, 6]⟩ : Matrix ℚ).WellFormed ∧
    ∃ AB BC L R : Matrix ℚ,
      operator_mul (⟨1, 2, [1, 2]⟩ : Matrix ℚ) ⟨2, 1, [3, 4]⟩ = .ok AB ∧
      operator_mul AB ⟨1, 2, [5, 6]⟩ = .ok L ∧
      operator_mul (⟨2, 1, [3, 4]⟩ : Matrix ℚ) ⟨1, 2, [5, 6]⟩ = .ok BC ∧
      operator_mul (⟨1, 2, [1, 2]⟩ : Matrix ℚ) BC = .ok R ∧ L = R := by
  have h1 : (⟨1, 2, [1, 2]⟩ : Matrix ℚ).WellFormed := ⟨by decide, by decide, rfl⟩
  have h2 : (⟨2, 1, [3, 4]⟩ : Matrix ℚ).WellFormed := ⟨by decide, by decide, rfl⟩
  have h3 : (⟨1, 2, [5, 6]⟩ : Matrix ℚ).WellFormed := ⟨by decide, by decide, rfl⟩
  obtain ⟨AB, BC, L, R, e1, e2, e3, e4, e5, _⟩ :=
    operator_mul_assoc (⟨1, 2, [1, 2]⟩ : Matrix ℚ) ⟨2, 1, [3, 4]⟩ ⟨1, 2, [5, 6]⟩ h1 h2 h3 rfl rfl
  exact ⟨h1, h2, h3, AB, BC, L, R, e1, e2, e3, e4, e5⟩

theorem Matrix.scalar_mul_spec_witness :
    (⟨1, 2, [1, 2]⟩ : Matrix ℚ).WellFormed ∧
    ∃ P, operator_mul_scalar (⟨1, 2, [1, 2]⟩ : Matrix ℚ) 3 = .ok P ∧
      scalar_operator_mul 3 (⟨1, 2, [1, 2]⟩ : Matrix ℚ) = .ok P ∧ P.rows = 1 ∧ P.cols = 2 := by
  have h : (⟨1, 2, [1, 2]⟩ : Matrix ℚ).WellFormed := ⟨by decide, by decide, rfl⟩
  obtain ⟨P, hP, hP', hr, hc, _⟩ := scalar_mul_spec (⟨1, 2, [1, 2]⟩ : Matrix ℚ) 3 h
  exact ⟨h, P, hP, hP', hr, hc⟩

theorem Matrix.rref_zeros_spec_witness :
    rref (zeros 2 3 : Matrix ℚ) = .ok (zeros 2 3) ∧
    rref (zeros 1 3 : Matrix ℚ) = .ok (zeros 1 3) :=
  rref_zeros_spec 2 3 (by decide) (by decide)

end Mlp

namespace Mlp

namespace Matrix

variable {α : Type} [LinearOrderedField α]

/-! ## The data-model invariant (C21) -/

theorem dot_ok {a b : Matrix α} {R C : Nat} (ha : a.HasShape R C)
    (hb : b.HasShape R C) (hR : 1 ≤ R) (hC : 1 ≤ C) :
    ∃ s, dot a b = .ok s ∧ s.HasShape R C ∧
      ∀ k, k < R * C → s.load k = a.load k * b.load k := by
  unfold dot
  rw [if_neg (by rw [ha.1, ha.2.1, hb.1, hb.2.1]; simp), ha.1, ha.2.1, ctor_ok hR hC]
  obtain ⟨hs, hl⟩ := forPure_store (fun i => a.load i * b.load i)
    (⟨R, C, List.replicate (R * C) 0⟩ : Matrix α) (hasShape_replicate R C) (C * R)
    (by rw [Nat.mul_comm])
  refine ⟨_, rfl, hs, ?_⟩
  intro k hk
  rw [hl k, if_pos (by rw [Nat.mul_comm]; exact hk)]

theorem dot_error {a b : Matrix α} (h : a.rows ≠ b.rows ∨ a.cols ≠ b.cols) :
    dot a b = .error .length_error := by
  unfold dot
  rw [if_pos h]

theorem operator_assign_eq {a b : Matrix α} {R C : Nat} (hb : b.HasShape R C) :
    operator_assign a b false = b :=
  copy_eq hb

/-- A successful result that some run of the same call has with a positive
shape is well formed. -/
theorem wellFormed_of_ok {x : Except MatError (Matrix α)} {S : Matrix α} {R C : Nat}
    (h : x = .ok S) (h' : ∃ S', x = .ok S' ∧ S'.HasShape R C) (hR : 1 ≤ R) (hC : 1 ≤ C) :
    S.WellFormed := by
  obtain ⟨S', hS', hs⟩ := h'
  rw [h] at hS'
  cases hS'
  exact hs.wellFormed hR hC

theorem same_shape_of_not_differ {A B : Matrix α} (hB : B.WellFormed)
    (h : ¬ (A.rows ≠ B.rows ∨ A.cols ≠ B.cols)) : B.HasShape A.rows A.cols := by
  have h1 : A.rows = B.rows := by
    by_contra e; exact h (Or.inl e)
  have h2 : A.cols = B.cols := by
    by_contra e; exact h (Or.inr e)
  exact ⟨h1.symm, h2.symm, by rw [hB.2.2, h1, h2]⟩

end Matrix

open Matrix

variable {α : Type} [LinearOrderedField α]

/-- C21. Every matrix returned by a successful construction is well formed
(`rows >= 1`, `cols >= 1`, a store of exactly `rows * cols` elements), and every
matrix-producing operation returns a well-formed matrix on well-formed
operands: copy, assignment, `transpose`, `vectorize`, `+`, `+=`, `dot`, the
matrix product, both scalar products, `rref`, `relu` and `softmax`. -/
theorem wellFormed_preserved (exp : α → α) :
    (∀ (rows cols : Int) (m : Matrix α), ctor rows cols = .ok m → m.WellFormed) ∧
    (∀ m : Matrix α, ctor_default = .ok m → m.WellFormed) ∧
    (∀ A : Matrix α, A.WellFormed → (copy A).WellFormed) ∧
    (∀ (A B : Matrix α) (same_object : Bool), A.WellFormed → B.WellFormed →
      (same_object = true → A = B) → (operator_assign A B same_object).WellFormed) ∧
    (∀ A : Matrix α, A.WellFormed → A.transpose.WellFormed) ∧
    (∀ A : Matrix α, A.WellFormed → A.vectorize.WellFormed) ∧
    (∀ A B S : Matrix α, A.WellFormed → B.WellFormed →
      operator_add A B = .ok S → S.WellFormed) ∧
    (∀ A B S : Matrix α, A.WellFormed → B.WellFormed →
      operator_add_assign A B = .ok S → S.WellFormed) ∧
    (∀ A B S : Matrix α, A.WellFormed → B.WellFormed → dot A B = .ok S → S.WellFormed) ∧
    (∀ A B S : Matrix α, A.WellFormed → B.WellFormed →
      operator_mul A B = .ok S → S.WellFormed) ∧
    (∀ (A S : Matrix α) (c : α), A.WellFormed →
      operator_mul_scalar A c = .ok S → S.WellFormed) ∧
    (∀ (A S : Matrix α) (c : α), A.WellFormed →
      scalar_operator_mul c A = .ok S → S.WellFormed) ∧
    (∀ A S : Matrix α, A.WellFormed → rref A = .ok S → S.WellFormed) ∧
    (∀ A S : Matrix α, A.WellFormed → relu A = .ok S → S.WellFormed) ∧
    (∀ A S : Matrix α, A.WellFormed → softmax exp A = .ok S → S.WellFormed) := by
  have hctor : ∀ (rows cols : Int) (m : Matrix α), ctor rows cols = .ok m → m.WellFormed := by
    intro rows cols m h
    by_cases hc : rows ≤ 0 ∨ cols ≤ 0
    · unfold ctor at h
      rw [if_pos hc] at h
      cases h
    · obtain ⟨r, rfl⟩ := Int.eq_ofNat_of_zero_le (show 0 ≤ rows by omega)
      obtain ⟨c, rfl⟩ := Int.eq_ofNat_of_zero_le (show 0 ≤ cols by omega)
      have hr : 1 ≤ r := by omega
      have hc' : 1 ≤ c := by omega
      rw [ctor_ok hr hc'] at h
      cases h
      exact (hasShape_replicate r c).wellFormed hr hc'
  refine ⟨hctor, fun m h => hctor 1 1 m h, ?_, ?_, ?_, ?_, ?_, ?_, ?_, ?_, ?_, ?_, ?_, ?_, ?_⟩
  · intro A hA
    rw [copy_eq hA.hasShape]
    exact hA
  · intro A B same_object hA hB hsame
    cases same_object with
    | true => exact hA
    | false =>
      rw [operator_assign_eq hB.hasShape]
      exact hB
  · intro A hA
    exact (transpose_ok hA.hasShape).1.wellFormed hA.2.1 hA.1
  · intro A hA
    exact (vectorize_hasShape hA.hasShape).wellFormed (Nat.mul_pos hA.1 hA.2.1) (le_refl 1)
  · intro A B S hA hB h
    by_cases hd : A.rows ≠ B.rows ∨ A.cols ≠ B.cols
    · rw [operator_add_error hd] at h
      cases h
    · obtain ⟨S', hS', hs, _⟩ :=
        operator_add_ok hA.hasShape (same_shape_of_not_differ hB hd) hA.1 hA.2.1
      exact wellFormed_of_ok h ⟨S', hS', hs⟩ hA.1 hA.2.1
  · intro A B S hA hB h
    by_cases hd : A.rows ≠ B.rows ∨ A.cols ≠ B.cols
    · rw [operator_add_assign_error hd] at h
      cases h
    · obtain ⟨S', hS', hs, _⟩ :=
        operator_add_assign_ok hA.hasShape (same_shape_of_not_differ hB hd)
      exact wellFormed_of_ok h ⟨S', hS', hs⟩ hA.1 hA.2.1
  · intro A B S hA hB h
    by_cases hd : A.rows ≠ B.rows ∨ A.cols ≠ B.cols
    · rw [dot_error hd] at h
      cases h
    · obtain ⟨S', hS', hs, _⟩ :=
        dot_ok hA.hasShape (same_shape_of_not_differ hB hd) hA.1 hA.2.1
      exact wellFormed_of_ok h ⟨S', hS', hs⟩ hA.1 hA.2.1
  · intro A B S hA hB h
    by_cases hd : A.cols = B.rows
    · obtain ⟨S', hS', hs, _⟩ := operator_mul_ok A B hA hB hd
      exact wellFormed_of_ok h ⟨S', hS', hs⟩ hA.1 hB.2.1
    · rw [operator_mul_error A B hd] at h
      cases h
  · intro A S c hA h
    obtain ⟨S', hS', hs, _⟩ := operator_mul_scalar_ok c hA.hasShape
    exact wellFormed_of_ok h ⟨S', hS', hs⟩ hA.1 hA.2.1
  · intro A S c hA h
    obtain ⟨S', hS', hs, _⟩ := scalar_operator_mul_ok c hA.hasShape
    exact wellFormed_of_ok h ⟨S', hS', hs⟩ hA.1 hA.2.1
  · intro A S hA h
    obtain ⟨S', hS', hs, _⟩ := rref_ok hA.hasShape
    exact wellFormed_of_ok h ⟨S', hS', hs⟩ hA.1 hA.2.1
  · intro A S hA h
    obtain ⟨S', hS', hs, _⟩ := relu_ok hA.hasShape hA.1 hA.2.1
    exact wellFormed_of_ok h ⟨S', hS', hs⟩ hA.1 hA.2.1
  · intro A S hA h
    obtain ⟨S', hS', hs, _⟩ := softmax_ok exp hA.hasShape hA.1 hA.2.1
    exact wellFormed_of_ok h ⟨S', hS', hs⟩ hA.1 hA.2.1

/-! ## Transposition, elementwise (C22) -/

/-- C22. For a matrix with `r` rows and `c` columns, `transpose` has `c` rows
and `r` columns, and its element at `(i, j)` is `A(j, i)` for every `i < c` and
`j < r`. -/
theorem Matrix.transpose_spec (A : Matrix α) (r c : Nat) (hA : A.HasShape r c) :
    A.transpose.rows = c ∧ A.transpose.cols = r ∧
    A.transpose.mat_data.length = c * r ∧
    ∀ i j : Nat, i < c → j < r →
      ∃ a, A.get_const j i = .ok a ∧ A.transpose.get_const i j = .ok a := by
  obtain ⟨hs, he⟩ := transpose_ok hA
  refine ⟨hs.1, hs.2.1, hs.2.2, ?_⟩
  intro i j hi hj
  refine ⟨A.entry j i, get_const_ok (by rw [hA.1]; exact hj) (by rw [hA.2.1]; exact hi), ?_⟩
  rw [get_const_ok (by rw [hs.1]; exact hi) (by rw [hs.2.1]; exact hj), he i j hi hj]

theorem Matrix.transpose_spec_witness :
    (⟨2, 3, [1, 2, 3, 4, 5, 6]⟩ : Matrix ℚ).HasShape 2 3 ∧
    (⟨2, 3, [1, 2, 3, 4, 5, 6]⟩ : Matrix ℚ).transpose.rows = 3 ∧
    (⟨2, 3, [1, 2, 3, 4, 5, 6]⟩ : Matrix ℚ).transpose.cols = 2 ∧
    ∃ a, (⟨2, 3, [1, 2, 3, 4, 5, 6]⟩ : Matrix ℚ).get_const 1 2 = .ok a ∧
      (⟨2, 3, [1, 2, 3, 4, 5, 6]⟩ : Matrix ℚ).transpose.get_const 2 1 = .ok a := by
  have h : (⟨2, 3, [1, 2, 3, 4, 5, 6]⟩ : Matrix ℚ).HasShape 2 3 := ⟨rfl, rfl, rfl⟩
  obtain ⟨hr, hc, _, he⟩ := Matrix.transpose_spec (⟨2, 3, [1, 2, 3, 4, 5, 6]⟩ : Matrix ℚ) 2 3 h
  exact ⟨h, hr, hc, he 2 1 (by decide) (by decide)⟩

end Mlp

namespace Mlp

namespace Matrix

variable {α : Type} [LinearOrderedField α]

/-! ## Termination and bounds of `rref` (C23) -/

/-- The main loop of `rref` is the iteration of its single pass. -/
theorem rref_loop_eq_step (rows cols : Nat) (m : Matrix α) (r lead : Nat) :
    rref_loop rows cols m r lead =
      match rref_step rows cols m r lead with
      | .error e => .error e
      | .ok (.done result) => .ok result
      | .ok (.next m' r' lead') => rref_loop rows cols m' r' lead' := by
  rw [rref_loop]
  unfold rref_step
  by_cases hr : r < rows
  · rw [if_pos hr, if_pos hr]
    by_cases hl : lead ≥ cols
    · rw [dif_pos hl, if_pos hl]
    · rw [dif_neg hl, if_neg hl]
      cases hf : find_pivot_row m r lead with
      | error e => rfl
      | ok o =>
        cases o with
        | none =>
          by_cases hlast : lead + 1 = cols
          · simp only [hlast, if_true]
          · simp only [hlast, if_false]
        | some p =>
          cases h1 : swap_rows m p r with
          | error e => simp only [h1]
          | ok m1 =>
            cases h2 : m1.get r lead with
            | error e => simp only [h1, h2]
            | ok pv =>
              cases h3 : divide_row m1 r pv with
              | error e => simp only [h1, h2, h3]
              | ok m2 =>
                cases h4 : eliminate_rows m2 r lead with
                | error e => simp only [h1, h2, h3, h4]
                | ok m3 => simp only [h1, h2, h3, h4]
  · rw [if_neg hr, if_neg hr]
    cases round_small_values m with
    | error e => rfl
    | ok t => rfl

/-- One pass through the main loop on a matrix of the loop's shape raises no
exception; when it comes back to the loop head, the shape is kept, the column
cursor has advanced by one and is still at most `C`, the row counter is kept (a
retry) or advanced by one, and the pair `(R - r, C - lead)` has decreased in
the lexicographic order. -/
theorem rref_step_ok {R C : Nat} {m : Matrix α} {r lead : Nat} (hm : m.HasShape R C)
    (hr : r ≤ R) :
    ∃ s, rref_step R C m r lead = .ok s ∧
      (∀ m' r' lead', s = .next m' r' lead' →
        m'.HasShape R C ∧ r' ≤ R ∧ lead' ≤ C ∧ lead' = lead + 1 ∧
        (r' = r ∨ r' = r + 1) ∧
        Prod.Lex (fun a b : Nat => a < b) (fun a b : Nat => a < b)
          (R - r', C - lead') (R - r, C - lead)) ∧
      (∀ t, s = .done t → t.HasShape R C) := by
  unfold rref_step
  by_cases hrR : r < R
  · rw [if_pos hrR]
    by_cases hlC : lead ≥ C
    · rw [if_pos hlC]
      refine ⟨_, rfl, ?_, ?_⟩
      · intro m' r' lead' h; cases h
      · intro t h; cases h; exact hm
    · rw [if_neg hlC]
      have hlt : lead < C := by omega
      rcases find_pivot_row_ok hm (le_of_lt hrR) hlt with ⟨hf, _⟩ | ⟨p, hf, _, hp, _, _⟩
      · rw [hf]
        by_cases hlast : lead + 1 = C
        · simp only [hlast, if_true]
          refine ⟨_, rfl, ?_, ?_⟩
          · intro m' r' lead' h; cases h
          · intro t h; cases h; exact hm
        · simp only [hlast, if_false]
          refine ⟨_, rfl, ?_, ?_⟩
          · intro m' r' lead' h
            cases h
            exact ⟨hm, hr, by omega, rfl, Or.inl rfl, Prod.Lex.right _ (by omega)⟩
          · intro t h; cases h
      · obtain ⟨m1, m2, m3, h1, h2, h3, h4, hs3, _⟩ := pivot_step_ok hm hrR hp hlt
        rw [hf]
        simp only [h1, h2, h3, h4]
        refine ⟨_, rfl, ?_, ?_⟩
        · intro m' r' lead' h
          cases h
          exact ⟨hs3, by omega, by omega, rfl, Or.inr rfl, Prod.Lex.left _ _ (by omega)⟩
        · intro t h; cases h
  · rw [if_neg hrR]
    obtain ⟨t, ht, hst, _⟩ := round_small_values_ok hm
    rw [ht]
    refine ⟨_, rfl, ?_, ?_⟩
    · intro m' r' lead' h; cases h
    · intro t' h; cases h; exact hst

/-- C23. On a well-formed matrix `rref` returns a result, so it raises no
out-of-range error: the helpers raise none on a matrix of the loop's shape with
indices in range, and every pass through the main loop that comes back to the
loop head keeps the shape, advances the column cursor by one within `cols`, and
decreases the pair `(rows - r, cols - lead)` lexicographically, a retried row
included. -/
theorem rref_terminates_in_bounds (A : Matrix α) (hA : A.WellFormed) :
    (∃ T, rref A = .ok T) ∧ rref A ≠ .error .out_of_range ∧
    rref A = rref_loop A.rows A.cols A 0 0 ∧
    (∀ (m : Matrix α) (r lead : Nat), m.HasShape A.rows A.cols → r ≤ A.rows →
      (rref_loop A.rows A.cols m r lead =
        match rref_step A.rows A.cols m r lead with
        | .error e => .error e
        | .ok (.done result) => .ok result
        | .ok (.next m' r' lead') => rref_loop A.rows A.cols m' r' lead') ∧
      ∃ s, rref_step A.rows A.cols m r lead = .ok s ∧
        (∀ m' r' lead', s = .next m' r' lead' →
          m'.HasShape A.rows A.cols ∧ r' ≤ A.rows ∧ lead' ≤ A.cols ∧ lead' = lead + 1 ∧
          (r' = r ∨ r' = r + 1) ∧
          Prod.Lex (fun a b : Nat => a < b) (fun a b : Nat => a < b)
            (A.rows - r', A.cols - lead') (A.rows - r, A.cols - lead)) ∧
        (∀ t, s = .done t → t.HasShape A.rows A.cols)) ∧
    (∀ (m : Matrix α) (r p lead : Nat), m.HasShape A.rows A.cols → r < A.rows →
      p < A.rows → lead < A.cols →
      (∃ o, find_pivot_row m r lead = .ok o) ∧ (∃ t, swap_rows m p r = .ok t) ∧
      (∃ v, m.get r lead = .ok v) ∧ (∀ d : α, ∃ t, divide_row m r d = .ok t) ∧
      (∃ t, eliminate_rows m r lead = .ok t) ∧ (∃ t, round_small_values m = .ok t)) := by
  obtain ⟨T, hT, _, _⟩ := rref_ok hA.hasShape
  refine ⟨⟨T, hT⟩, ?_, ?_, ?_, ?_⟩
  · rw [hT]
    intro h
    cases h
  · unfold rref
    rw [copy_eq hA.hasShape]
  · intro m r lead hm hr
    exact ⟨rref_loop_eq_step _ _ m r lead, rref_step_ok hm hr⟩
  · intro m r p lead hm hr hp hl
    refine ⟨?_, ?_, ?_, ?_, ?_, ?_⟩
    · rcases find_pivot_row_ok hm (le_of_lt hr) hl with ⟨hf, _⟩ | ⟨q, hf, _⟩
      · exact ⟨_, hf⟩
      · exact ⟨_, hf⟩
    · obtain ⟨t, ht, _⟩ := swap_rows_ok hm hp hr
      exact ⟨t, ht⟩
    · exact ⟨_, get_ok (by rw [hm.1]; exact hr) (by rw [hm.2.1]; exact hl)⟩
    · intro d
      obtain ⟨t, ht, _⟩ := divide_row_ok hm hr d
      exact ⟨t, ht⟩
    · obtain ⟨t, ht, _⟩ := eliminate_rows_ok hm hr hl
      exact ⟨t, ht⟩
    · obtain ⟨t, ht, _⟩ := round_small_values_ok hm
      exact ⟨t, ht⟩

theorem rref_terminates_in_bounds_witness :
    (⟨2, 3, [0, 0, 1, 0, 0, 2]⟩ : Matrix ℚ).WellFormed ∧
    (∃ T, rref (⟨2, 3, [0, 0, 1, 0, 0, 2]⟩ : Matrix ℚ) = .ok T) ∧
    rref (⟨2, 3, [0, 0, 1, 0, 0, 2]⟩ : Matrix ℚ) ≠ .error .out_of_range := by
  have h : (⟨2, 3, [0, 0, 1, 0, 0, 2]⟩ : Matrix ℚ).WellFormed := ⟨by decide, by decide, rfl⟩
  have key := rref_terminates_in_bounds (⟨2, 3, [0, 0, 1, 0, 0, 2]⟩ : Matrix ℚ) h
  exact ⟨h, key.1, key.2.1⟩

end Matrix

end Mlp
